import Mathlib

/-!
Verification development for the jan-pro financial tools repository
(`src/pages/Depreciation_Schedule.py`, `src/pages/Profit_Analysis.py`,
`src/pages/Upgrade_Fee.py`).

The Python code is shallowly embedded: Python floats are modelled as exact
decimal rationals (`ℚ`), Python ints as `ℤ`, strings as `List Char`/`String`,
pandas tables as lists of records, and the one in-place DataFrame mutation as
explicit state passing.  Fallible operations (`float(...)`) return `Option`
or `Except`.
-/

namespace FinTools

/-- The six ASCII whitespace characters matched by Python's `\s` and stripped
by `str.strip` (Unicode whitespace beyond ASCII is not modelled). -/
def isSpaceChar (c : Char) : Bool :=
  c == ' ' || c == '\t' || c == '\n' || c == '\r' || c == '\x0b' || c == '\x0c'

/-- The decimal digit character for `d` (`d < 10`; other inputs map to a
placeholder that never arises). -/
def digitChar (d : ℕ) : Char :=
  match d with
  | 0 => '0' | 1 => '1' | 2 => '2' | 3 => '3' | 4 => '4'
  | 5 => '5' | 6 => '6' | 7 => '7' | 8 => '8' | 9 => '9'
  | _ => '*'

/-- Numeric value of a decimal digit character. -/
def digitVal (c : Char) : ℕ :=
  c.toNat - 48

/-- Decimal digit string of a natural number, most significant digit first
(the digits Python prints for a nonnegative integer). -/
def natDigits (n : ℕ) : List Char :=
  if _h : n < 10 then [digitChar n]
  else natDigits (n / 10) ++ [digitChar (n % 10)]
termination_by n
decreasing_by exact Nat.div_lt_self (by omega) (by omega)

/-- Value of a decimal digit string (leading zeros allowed). -/
def valOfDigits (cs : List Char) : ℕ :=
  cs.foldl (fun a c => 10 * a + digitVal c) 0

/-- Python's `float(...)` applied to a cleaned numeric string, restricted to
the plain decimal fragment (digit strings with at most one dot, as produced
by the regex captures and the cleaned CSV cells of this code base; signs,
exponents, `inf`/`nan` and underscore grouping are outside the decimal
embedding).  Returns `none` where `float` raises `ValueError`. -/
def pyFloat? (cs : List Char) : Option ℚ :=
  let intP := cs.takeWhile (fun c => !(c == '.'))
  let rest := cs.dropWhile (fun c => !(c == '.'))
  match rest with
  | [] =>
      if intP ≠ [] ∧ (∀ c ∈ intP, c.isDigit = true)
      then some ((valOfDigits intP : ℚ)) else none
  | _ :: frac =>
      if frac.contains '.' then none
      else if (intP ≠ [] ∨ frac ≠ []) ∧ (∀ c ∈ intP, c.isDigit = true)
              ∧ (∀ c ∈ frac, c.isDigit = true)
      then some ((valOfDigits intP : ℚ) + (valOfDigits frac : ℚ) / 10 ^ frac.length)
      else none

/-- Python `str.strip()`: drop leading and trailing whitespace. -/
def pyStrip (cs : List Char) : List Char :=
  ((cs.dropWhile isSpaceChar).reverse.dropWhile isSpaceChar).reverse

/-- The cleaning step shared by `_parse_money` (Profit_Analysis.py, line 91)
and `_parse_number` (Upgrade_Fee.py, line 43):
`value.replace("$", "").replace(",", "").replace("%", "").strip()`. -/
def pyClean (cs : List Char) : List Char :=
  pyStrip (cs.filter (fun c => !(c == '$' || c == ',' || c == '%')))

/-- String branch of `_parse_money` / `_parse_number`: clean, then `float`,
falling back to `0.0` on `ValueError`. -/
def parseMoneyChars (cs : List Char) : ℚ :=
  match pyFloat? (pyClean cs) with
  | some v => v
  | none => 0

/-- A cell value as read out of a pandas table: a number, a string, or a
missing value (`None` / `NaN` cell). -/
inductive PyValue where
  | num (q : ℚ)
  | str (s : String)
  | pnull
deriving DecidableEq

/-- `_parse_money` (Profit_Analysis.py, lines 85-95): numbers pass through,
missing values give `0.0`, strings are cleaned and converted with a
`ValueError` fallback to `0.0`. -/
def parseMoney : PyValue → ℚ
  | .num q => q
  | .pnull => 0
  | .str s => parseMoneyChars s.data

/-- `_parse_number` (Upgrade_Fee.py, lines 38-47): same as `_parse_money`
except that a missing value reaches `str(value) = "None"`, whose conversion
fails and yields `0.0` as well. -/
def parseNumber : PyValue → ℚ
  | .num q => q
  | .pnull => parseMoneyChars [ 'N', 'o', 'n', 'e' ]
  | .str s => parseMoneyChars s.data

/-- A nonnegative finite decimal `m / 10 ^ k`, the exact value of a Python
float whose decimal display is finite. -/
structure Dec where
  m : ℕ
  k : ℕ
deriving DecidableEq

/-- Rational value of a `Dec`. -/
def Dec.val (d : Dec) : ℚ :=
  (d.m : ℚ) / 10 ^ d.k

/-- Strip trailing zero digits from the representation `m / 10 ^ k`
(Python float repr prints the shortest decimal form). -/
def canonShift : ℕ → ℕ → ℕ × ℕ
  | m, 0 => (m, 0)
  | m, k + 1 => if m % 10 = 0 then canonShift (m / 10) k else (m, k + 1)

/-- Pad a digit string with leading zeros to width `k`. -/
def padZeros (k : ℕ) (ds : List Char) : List Char :=
  List.replicate (k - ds.length) '0' ++ ds

/-- Python `str(float)` for a nonnegative finite decimal `m / 10 ^ k` in the
plain (non-scientific) display range: integers print with a trailing `.0`,
other values print their shortest decimal expansion. -/
def pyReprChars (m k : ℕ) : List Char :=
  let c := canonShift m k
  if c.2 = 0 then natDigits c.1 ++ [ '.', '0' ]
  else natDigits (c.1 / 10 ^ c.2) ++ [ '.' ] ++ padZeros c.2 (natDigits (c.1 % 10 ^ c.2))

/-- Insert a thousands separator after every third digit of a reversed digit
string (the grouping of Python's `,` format specifier). -/
def commaGroupRev : List Char → List Char
  | a :: b :: c :: d :: rest => a :: b :: c :: ',' :: commaGroupRev (d :: rest)
  | cs => cs
termination_by cs => cs.length

/-- Comma-group a digit string, most significant digit first. -/
def commaGroup (ds : List Char) : List Char :=
  (commaGroupRev ds.reverse).reverse

/-- Floor of a rational. -/
def ratFloor (q : ℚ) : ℤ :=
  Int.floor q

/-- The cent count printed by Python's `:,.2f` format: the value scaled by
100 and rounded half-to-even (the rounding of `format` on the exact decimal
value; binary representation error is not modelled). -/
def centsOf (x : ℚ) : ℤ :=
  let n := ratFloor (x * 100)
  let f := x * 100 - n
  if f < 1 / 2 then n
  else if 1 / 2 < f then n + 1
  else if n % 2 = 0 then n else n + 1

/-- Python `f"{x:,.2f}"` for a nonnegative amount: comma-grouped integer
part, a dot, and exactly two fractional digits. -/
def money2Chars (x : ℚ) : List Char :=
  let c := (centsOf x).toNat
  commaGroup (natDigits (c / 100)) ++ [ '.' ] ++ padZeros 2 (natDigits (c % 100))

/-- One attempt of `re.search` for a pattern `label\s*\$?(GROUP+)` anchored at
the start of `s`: the literal label, then greedily skipped whitespace, then an
optional dollar sign (when `dollar` is set), then a nonempty maximal run of
characters satisfying `allowed` as the captured group.  Backtracking cannot
rescue a failed attempt for these patterns, since neither a whitespace
character nor `$` can start the captured group. -/
def tryAt (label : List Char) (dollar : Bool) (allowed : Char → Bool)
    (s : List Char) : Option (List Char) :=
  if label.isPrefixOf s then
    let t := (s.drop label.length).dropWhile isSpaceChar
    let t' := if dollar then (match t with | '$' :: u => u | _ => t) else t
    let g := t'.takeWhile allowed
    if g.isEmpty then none else some g
  else none

/-- `re.search` for `label\s*\$?(GROUP+)`: try every start position from the
left and capture at the first position where the whole pattern matches. -/
def searchGroup (label : List Char) (dollar : Bool) (allowed : Char → Bool) :
    List Char → Option (List Char)
  | [] => none
  | c :: rest =>
      match tryAt label dollar allowed (c :: rest) with
      | some g => some g
      | none => searchGroup label dollar allowed rest

/-- Character class `[\d.,]` of the `Wage:`/`Total:` captures. -/
def moneyChar (c : Char) : Bool :=
  c.isDigit || c == '.' || c == ','

/-- Character class `[\d.]` of the `Hours:`/`Nights:`/`Weeks:` captures. -/
def numChar (c : Char) : Bool :=
  c.isDigit || c == '.'

def wageLbl : List Char := [ 'W', 'a', 'g', 'e', ':' ]

def hoursLbl : List Char := [ 'H', 'o', 'u', 'r', 's', ':' ]

def nightsLbl : List Char := [ 'N', 'i', 'g', 'h', 't', 's', ':' ]

def weeksLbl : List Char := [ 'W', 'e', 'e', 'k', 's', ':' ]

def totalLbl : List Char := [ 'T', 'o', 't', 'a', 'l', ':' ]

/-- `re.search(r"Wage:\s*\$?([\d.,]+)", s)` capture. -/
def wageM (cs : List Char) : Option (List Char) :=
  searchGroup wageLbl true moneyChar cs

/-- `re.search(r"Hours:\s*([\d.]+)", s)` capture. -/
def hoursM (cs : List Char) : Option (List Char) :=
  searchGroup hoursLbl false numChar cs

/-- `re.search(r"Nights:\s*([\d.]+)", s)` capture. -/
def nightsM (cs : List Char) : Option (List Char) :=
  searchGroup nightsLbl false numChar cs

/-- `re.search(r"Weeks:\s*([\d.]+)", s)` capture. -/
def weeksM (cs : List Char) : Option (List Char) :=
  searchGroup weeksLbl false numChar cs

/-- `re.search(r"Total:\s*\$?([\d.,]+)", s)` capture. -/
def totalM (cs : List Char) : Option (List Char) :=
  searchGroup totalLbl true moneyChar cs

/-- The structured record built by `_parse_employee_detail`. -/
structure EmployeeRec where
  item : String
  wage : ℚ
  hours : ℚ
  nights : ℚ
  weeks : ℚ
  monthly : ℚ
deriving DecidableEq

def importedItem : String := "Imported Employee"

/-- `_parse_employee_detail` (Profit_Analysis.py, lines 98-122).  All five
fields are searched first; if any fails the empty record (`.ok none`) is
returned.  Otherwise `Wage`/`Total` go through `_parse_money` (which cannot
raise) while `Hours`/`Nights`/`Weeks` go through a bare `float(...)`, whose
`ValueError` on a matched but malformed group (such as `"."`) escapes the
function (`.error ()`). -/
def parseEmployeeDetail (s : String) : Except Unit (Option EmployeeRec) :=
  let cs := s.data
  match wageM cs, hoursM cs, nightsM cs, weeksM cs, totalM cs with
  | some gw, some gh, some gn, some gk, some gt =>
      match pyFloat? gh, pyFloat? gn, pyFloat? gk with
      | some h, some n, some k =>
          .ok (some { item := importedItem, wage := parseMoneyChars gw,
                      hours := h, nights := n, weeks := k,
                      monthly := parseMoneyChars gt })
      | _, _, _ => .error ()
  | _, _, _, _, _ => .ok none

/-- Python's substring test `pat in s`. -/
def containsSub (pat : List Char) : List Char → Bool
  | [] => pat.isEmpty
  | c :: rest => pat.isPrefixOf (c :: rest) || containsSub pat rest

def employeeTok : String := "Employee"

def detailsTok : String := "Details"

/-- The import loop over `item_to_value` rows (Profit_Analysis.py, lines
334-340): keep only labels containing both `"Employee"` and `"Details"`,
parse each detail string, drop rows whose parse gives the empty record, stamp
the label into the record, and propagate a raised `ValueError`. -/
def importEmployees : List (String × String) → Except Unit (List EmployeeRec)
  | [] => .ok []
  | (lbl, detail) :: rest =>
      if containsSub employeeTok.data lbl.data && containsSub detailsTok.data lbl.data then
        match parseEmployeeDetail detail with
        | .error e => .error e
        | .ok none => importEmployees rest
        | .ok (some r) =>
            match importEmployees rest with
            | .error e => .error e
            | .ok rs => .ok ({ r with item := lbl } :: rs)
      else importEmployees rest

def wagePre : List Char := [ 'W', 'a', 'g', 'e', ':', ' ', '$' ]

def hoursPre : List Char :=
  [ '/', 'h', 'r', ',', ' ', 'H', 'o', 'u', 'r', 's', ':', ' ' ]

def nightsPre : List Char := [ ',', ' ', 'N', 'i', 'g', 'h', 't', 's', ':', ' ' ]

def weeksPre : List Char := [ ',', ' ', 'W', 'e', 'e', 'k', 's', ':', ' ' ]

def totalPre : List Char :=
  [ ',', ' ', 'T', 'o', 't', 'a', 'l', ':', ' ', '$' ]

/-- The exported detail string of Profit_Analysis.py, line 297, with the five
numeric substrings abstracted:
`"Wage: $<W>/hr, Hours: <H>, Nights: <N>, Weeks: <K>, Total: $<T>"`. -/
def renderDetailChars (W H N K T : List Char) : List Char :=
  wagePre ++ W ++ hoursPre ++ H ++ nightsPre ++ N ++ weeksPre ++ K ++ totalPre ++ T

/-- The exported detail string produced for an employee with rate fields
`w h n k` (printed with plain float repr) and monthly cost `t` (printed with
the `:,.2f` money format), per Profit_Analysis.py, line 297. -/
def renderEmployeeDetail (w h n k : Dec) (t : ℚ) : String :=
  ⟨renderDetailChars (pyReprChars w.m w.k) (pyReprChars h.m h.k)
    (pyReprChars n.m n.k) (pyReprChars k.m k.k) (money2Chars t)⟩

/-- A nonempty string of digits and dots (the shape of a rendered rate
field). -/
def NumStr (g : List Char) : Prop :=
  g ≠ [] ∧ ∀ c ∈ g, c.isDigit = true ∨ c = '.'

/-- A nonempty string of digits, dots and commas (the shape of a rendered
money field). -/
def MoneyStr (g : List Char) : Prop :=
  g ≠ [] ∧ ∀ c ∈ g, c.isDigit = true ∨ c = '.' ∨ c = ','

/-- A canonical finite-decimal representation: no trailing zero digits
(Python float repr prints the shortest form). -/
def DecCanon (d : Dec) : Prop :=
  d.k = 0 ∨ ¬(10 ∣ d.m)

/-- A value inside Python's plain (non-scientific) float display range:
below `10 ^ 16` and, unless zero, at least `10 ^ (-4)`. -/
def DecPlain (d : Dec) : Prop :=
  d.m < 10 ^ (d.k + 16) ∧ (10 ^ 4 * d.m ≥ 10 ^ d.k ∨ d.m = 0)

/-- One row of the editable asset table of Depreciation_Schedule.py. -/
structure Asset where
  name : String
  cost : ℚ
  purchaseYear : ℤ
  life : ℤ
deriving DecidableEq

/-- `End Year` of an asset: `Purchase Year + Useful Life - 1`
(Depreciation_Schedule.py, line 56). -/
def Asset.endYear (a : Asset) : ℤ :=
  a.purchaseYear + a.life - 1

/-- `min` over a nonempty numeric pandas column (the empty case is guarded
before use in the code). -/
def listMinZ : List ℤ → ℤ
  | [] => 0
  | x :: xs => xs.foldl min x

/-- `max` over a nonempty numeric pandas column. -/
def listMaxZ : List ℤ → ℤ
  | [] => 0
  | x :: xs => xs.foldl max x

/-- `df['Purchase Year'].min()` (Depreciation_Schedule.py, line 59). -/
def startYear (assets : List Asset) : ℤ :=
  listMinZ (assets.map Asset.purchaseYear)

/-- `df['End Year'].max()` (Depreciation_Schedule.py, line 60). -/
def endYearMax (assets : List Asset) : ℤ :=
  listMaxZ (assets.map Asset.endYear)

/-- The consecutive integers `s, s+1, ..., s+n-1`
(`range(start_year, end_year + 1)`). -/
def yearsFrom (s : ℤ) : ℕ → List ℤ
  | 0 => []
  | n + 1 => s :: yearsFrom (s + 1) n

/-- One calendar-year row of the generated schedule: the year, one column per
asset (explicit `0` outside the asset's depreciation period), and the row
total. -/
structure YearRow where
  year : ℤ
  perAsset : List (String × ℚ)
  total : ℚ
deriving DecidableEq

/-- Straight-line annual depreciation `Cost / Useful Life`
(Depreciation_Schedule.py, line 69). -/
def annualDep (a : Asset) : ℚ :=
  a.cost / (a.life : ℚ)

/-- The contribution of asset `a` to calendar year `y`: its annual
depreciation iff `Purchase Year ≤ y ≤ End Year`, else an explicit `0`
(Depreciation_Schedule.py, lines 68-76). -/
def contrib (y : ℤ) (a : Asset) : ℚ :=
  if a.purchaseYear ≤ y ∧ y ≤ a.endYear then annualDep a else 0

/-- The row built for calendar year `y` (Depreciation_Schedule.py, lines
64-79); with distinct asset names the Python dict keyed by name is this
association list. -/
def yearRow (assets : List Asset) (y : ℤ) : YearRow :=
  { year := y
    perAsset := assets.map (fun a => (a.name, contrib y a))
    total := (assets.map (contrib y)).sum }

/-- The full row sequence of `generate_calendar_schedule` for a nonempty
asset table. -/
def scheduleRows (assets : List Asset) : List YearRow :=
  (yearsFrom (startYear assets)
    (endYearMax assets - startYear assets + 1).toNat).map (yearRow assets)

/-- The caller's asset DataFrame: its rows plus whether the derived
`End Year` column is present. -/
structure AssetsDF where
  assets : List Asset
  hasEndYear : Bool
deriving DecidableEq

/-- `generate_calendar_schedule` (Depreciation_Schedule.py, lines 51-81) as a
state transformer: it returns the schedule and the caller's DataFrame as the
call leaves it.  On a nonempty input, line 56 (`df['End Year'] = ...`)
assigns a new column on the caller's object in place. -/
def generateCalendarSchedule (df : AssetsDF) : AssetsDF × List YearRow :=
  if df.assets.isEmpty then (df, [])
  else ({ assets := df.assets, hasEndYear := true }, scheduleRows df.assets)

/-- `cumsum` over the row totals (Depreciation_Schedule.py, line 92), with
accumulator `acc`. -/
def cumsumFrom (acc : ℚ) : List ℚ → List ℚ
  | [] => []
  | x :: xs => (acc + x) :: cumsumFrom (acc + x) xs

/-- The `Cumulative Depreciation` column of the displayed schedule. -/
def cumsum (xs : List ℚ) : List ℚ :=
  cumsumFrom 0 xs

def royalty_rate : ℚ := 1 / 10

def management_fee_rate : ℚ := 1 / 20

def insurance_rate : ℚ := 11 / 200

def commission_rate : ℚ := 0

/-- The derived quantities of the Profit Analysis page. -/
structure ProfitResult where
  labor_cost_percentage : ℚ
  total_cost : ℚ
  net_profit : ℚ
  profit_margin : ℚ
deriving DecidableEq

/-- The calculation block of Profit_Analysis.py, lines 126-149, as a function
of the four scalar inputs it reads. -/
def computeProfit (monthly_billing supply_cost other_cost labor_cost : ℚ) :
    ProfitResult :=
  let total_cost :=
    supply_cost + other_cost + labor_cost +
      monthly_billing * royalty_rate + monthly_billing * management_fee_rate +
      monthly_billing * insurance_rate + monthly_billing * commission_rate
  { labor_cost_percentage :=
      if 0 < monthly_billing then labor_cost / monthly_billing * 100 else 0
    total_cost := total_cost
    net_profit := monthly_billing - total_cost
    profit_margin :=
      if 0 < monthly_billing
      then (monthly_billing - total_cost) / monthly_billing * 100 else 0 }

/-- The derived quantities of the Upgrade Fee page. -/
structure UpgradeResult where
  upgrade_total : ℚ
  net_after_credits : ℚ
  dp_amount : ℚ
  amt_financed_base : ℚ
  interest_amt : ℚ
  total_financed : ℚ
  monthly_payment : ℚ
deriving DecidableEq

/-- The calculation block of Upgrade_Fee.py, lines 103-109. -/
def computeUpgrade (billing multiplier credits dp_pct interest_rate : ℚ)
    (terms : ℤ) : UpgradeResult :=
  let upgrade_total := billing * multiplier
  let net_after_credits := upgrade_total - credits
  let dp_amount := net_after_credits * dp_pct / 100
  let amt_financed_base := net_after_credits - dp_amount
  let interest_amt := amt_financed_base * interest_rate / 100
  let total_financed := amt_financed_base + interest_amt
  { upgrade_total := upgrade_total
    net_after_credits := net_after_credits
    dp_amount := dp_amount
    amt_financed_base := amt_financed_base
    interest_amt := interest_amt
    total_financed := total_financed
    monthly_payment :=
      if 0 < terms then total_financed / (terms : ℚ) else 0 }

/-- The Upgrade Fee session state keys populated by `default_state`
(Upgrade_Fee.py, lines 26-35). -/
structure UState where
  billing : ℚ
  multiplier : ℚ
  credits : ℚ
  dp_pct : ℚ
  interest_rate : ℚ
  terms : ℤ
deriving DecidableEq

/-- `default_state` of Upgrade_Fee.py, lines 26-33. -/
def defaultState : UState :=
  { billing := 0, multiplier := 4, credits := 0, dp_pct := 25,
    interest_rate := 10, terms := 0 }

/-- `dict(zip(df["Description"], df["Value"]))` lookup: on duplicate labels
the later row wins, absent labels give `none`. -/
def lookupLast (tbl : List (String × PyValue)) (k : String) : Option PyValue :=
  tbl.reverse.lookup k

/-- Python `int(...)` on a float: truncation toward zero. -/
def pyIntTrunc (q : ℚ) : ℤ :=
  Int.tdiv q.num q.den

def billingLbl : String := "Contract Monthly Billing"

def multiplierLbl : String := "Multiplier"

def creditsLbl : String := "Credits"

def interestLbl : String := "Interest Rate %"

def termsLbl : String := "Payment Terms (Months)"

/-- `handle_upload` (Upgrade_Fee.py, lines 6-24) on an accepted table (one
that has the `Description` and `Value` columns): five session keys are
overwritten from labelled lookups with per-field defaults; no other key —
in particular not `dp_pct` — is touched. -/
def handleUpload (tbl : List (String × PyValue)) (st : UState) : UState :=
  { billing := parseNumber ((lookupLast tbl billingLbl).getD (.num 0))
    multiplier := parseNumber ((lookupLast tbl multiplierLbl).getD (.num 4))
    credits := parseNumber ((lookupLast tbl creditsLbl).getD (.num 0))
    dp_pct := st.dp_pct
    interest_rate := parseNumber ((lookupLast tbl interestLbl).getD (.num 10))
    terms := pyIntTrunc (parseNumber ((lookupLast tbl termsLbl).getD (.num 0))) }

/-- The eleven `Description` labels written by the Upgrade Fee CSV export
(Upgrade_Fee.py, lines 131-144). -/
def exportDescriptions : List String :=
  [ "Contract Monthly Billing", "Multiplier", "Upgrade Subtotal", "Credits",
    "Net Amount (After Credits)", "Down Payment Amount",
    "Amount Financed (Principal)", "Interest Amount",
    "Total Financed Amount", "Payment Terms (Months)",
    "Estimated Monthly Upgrade Fee" ]

def sampleUploadTbl : List (String × PyValue) := [(multiplierLbl, .num 7)]

def garbageStr : String := "abc$%garbage"

def sampleMoneyStr : String := "$1,234.56"

def noMatchStr : String := "no numeric fields here"

def empLbl : String := "Employee 1 Details"

def weeksDotStr : String := "Wage: $1 Hours: 1 Nights: 1 Weeks: . Total: $2"

def exampleAssetName : String := "Example Asset"

def exampleAsset : Asset :=
  { name := exampleAssetName, cost := 10000, purchaseYear := 2024, life := 5 }

theorem digitVal_digitChar {d : ℕ} (h : d < 10) : digitVal (digitChar d) = d := by
  interval_cases d <;> rfl

theorem isDigit_digitChar {d : ℕ} (h : d < 10) : (digitChar d).isDigit = true := by
  interval_cases d <;> rfl

theorem natDigits_ne_nil (n : ℕ) : natDigits n ≠ [] := by
  rw [natDigits]
  split <;> simp

theorem natDigits_all_isDigit (n : ℕ) : ∀ c ∈ natDigits n, c.isDigit = true := by
  induction n using Nat.strong_induction_on with
  | _ n ih =>
    rw [natDigits]
    split
    next h =>
      intro c hc
      simp only [List.mem_singleton] at hc
      subst hc
      exact isDigit_digitChar h
    next h =>
      intro c hc
      rw [List.mem_append] at hc
      rcases hc with hc | hc
      · exact ih (n / 10) (Nat.div_lt_self (by omega) (by omega)) c hc
      · simp only [List.mem_singleton] at hc
        subst hc
        exact isDigit_digitChar (Nat.mod_lt _ (by omega))

theorem foldl_val_append (init : ℕ) (xs : List Char) :
    xs.foldl (fun a c => 10 * a + digitVal c) init
      = init * 10 ^ xs.length + valOfDigits xs := by
  induction xs generalizing init with
  | nil => simp [valOfDigits]
  | cons c cs ih =>
    simp only [List.foldl_cons, valOfDigits, List.length_cons]
    rw [ih, ih (10 * 0 + digitVal c)]
    ring

theorem valOfDigits_append (xs ys : List Char) :
    valOfDigits (xs ++ ys) = valOfDigits xs * 10 ^ ys.length + valOfDigits ys := by
  simp only [valOfDigits, List.foldl_append]
  rw [foldl_val_append]
  rfl

theorem valOfDigits_natDigits (n : ℕ) : valOfDigits (natDigits n) = n := by
  induction n using Nat.strong_induction_on with
  | _ n ih =>
    rw [natDigits]
    split
    next h =>
      simp [valOfDigits, digitVal_digitChar h]
    next h =>
      rw [valOfDigits_append, ih (n / 10) (Nat.div_lt_self (by omega) (by omega))]
      simp [valOfDigits, digitVal_digitChar (Nat.mod_lt n (show 0 < 10 by omega))]
      omega

theorem natDigits_length_le {n d : ℕ} (hd : 0 < d) (h : n < 10 ^ d) :
    (natDigits n).length ≤ d := by
  induction d generalizing n with
  | zero => omega
  | succ d ihd =>
    rw [natDigits]
    split
    next h10 =>
      simp
    next h10 =>
      rcases Nat.eq_zero_or_pos d with rfl | hdp
      · simp at h; omega
      · have : n / 10 < 10 ^ d := by
          rw [Nat.div_lt_iff_lt_mul (by omega)]
          calc n < 10 ^ (d + 1) := h
          _ = 10 ^ d * 10 := by ring
        have := ihd hdp this
        simp only [List.length_append, List.length_singleton]
        omega

theorem sum_map_addQ (L : List ℤ) (g h : ℤ → ℚ) :
    (L.map (fun y => g y + h y)).sum = (L.map g).sum + (L.map h).sum := by
  induction L with
  | nil => simp
  | cons y ys ih =>
    simp only [List.map_cons, List.sum_cons, ih]
    ring

theorem sum_map_zeroQ (L : List ℤ) : (L.map (fun _ => (0 : ℚ))).sum = 0 := by
  induction L with
  | nil => rfl
  | cons y ys ih => simp [ih]

theorem sum_swapQ (Y : List ℤ) (A : List Asset) (f : ℤ → Asset → ℚ) :
    (Y.map (fun y => (A.map (f y)).sum)).sum
      = (A.map (fun a => (Y.map (fun y => f y a)).sum)).sum := by
  induction A with
  | nil =>
    simp only [List.map_nil, List.sum_nil]
    exact sum_map_zeroQ Y
  | cons a as ih =>
    simp only [List.map_cons, List.sum_cons]
    rw [← ih, ← sum_map_addQ]

theorem yearsFrom_length (s : ℤ) (n : ℕ) : (yearsFrom s n).length = n := by
  induction n generalizing s with
  | zero => rfl
  | succ n ih => simp [yearsFrom, ih]

theorem mem_yearsFrom {y s : ℤ} {n : ℕ} :
    y ∈ yearsFrom s n ↔ s ≤ y ∧ y < s + n := by
  induction n generalizing s with
  | zero => simp [yearsFrom]
  | succ n ih =>
    simp only [yearsFrom, List.mem_cons, ih]
    omega

theorem yearsFrom_append (s : ℤ) (a b : ℕ) :
    yearsFrom s (a + b) = yearsFrom s a ++ yearsFrom (s + a) b := by
  induction a generalizing s with
  | zero => simp [yearsFrom]
  | succ a ih =>
    have : a + 1 + b = (a + b) + 1 := by omega
    rw [this]
    simp only [yearsFrom, List.cons_append]
    rw [ih (s + 1)]
    have : s + 1 + (a : ℤ) = s + (a + 1 : ℕ) := by push_cast; ring
    rw [this]

theorem yearsFrom_pairwise (s : ℤ) (n : ℕ) :
    (yearsFrom s n).Pairwise (· < ·) := by
  induction n generalizing s with
  | zero => exact List.Pairwise.nil
  | succ n ih =>
    refine List.pairwise_cons.mpr ⟨?_, ih (s + 1)⟩
    intro y hy
    have := mem_yearsFrom.mp hy
    omega

theorem sum_indicator_outside {p q : ℤ} {v : ℚ} {L : List ℤ}
    (h : ∀ y ∈ L, ¬(p ≤ y ∧ y ≤ q)) :
    (L.map (fun y => if p ≤ y ∧ y ≤ q then v else 0)).sum = 0 := by
  induction L with
  | nil => rfl
  | cons y ys ih =>
    simp only [List.map_cons, List.sum_cons]
    rw [if_neg (h y (List.mem_cons_self y ys)),
      ih (fun z hz => h z (List.mem_cons_of_mem y hz))]
    ring

theorem sum_indicator_inside {p q : ℤ} {v : ℚ} {L : List ℤ}
    (h : ∀ y ∈ L, p ≤ y ∧ y ≤ q) :
    (L.map (fun y => if p ≤ y ∧ y ≤ q then v else 0)).sum = L.length * v := by
  induction L with
  | nil => simp
  | cons y ys ih =>
    simp only [List.map_cons, List.sum_cons, List.length_cons]
    rw [if_pos (h y (List.mem_cons_self y ys)),
      ih (fun z hz => h z (List.mem_cons_of_mem y hz))]
    push_cast
    ring

theorem foldl_min_le_init : ∀ (xs : List ℤ) (i : ℤ), xs.foldl min i ≤ i := by
  intro xs
  induction xs with
  | nil => intro i; simp
  | cons x t ih =>
    intro i
    simp only [List.foldl_cons]
    exact le_trans (ih (min i x)) (min_le_left i x)

theorem foldl_min_le_mem : ∀ (xs : List ℤ) (i x : ℤ), x ∈ xs → xs.foldl min i ≤ x := by
  intro xs
  induction xs with
  | nil => intro i x hx; simp at hx
  | cons z t ih =>
    intro i x hx
    rcases List.mem_cons.mp hx with rfl | hx
    · simp only [List.foldl_cons]
      exact le_trans (foldl_min_le_init t (min i x)) (min_le_right i x)
    · exact ih (min i z) x hx

theorem le_foldl_max_init : ∀ (xs : List ℤ) (i : ℤ), i ≤ xs.foldl max i := by
  intro xs
  induction xs with
  | nil => intro i; simp
  | cons x t ih =>
    intro i
    simp only [List.foldl_cons]
    exact le_trans (le_max_left i x) (ih (max i x))

theorem le_foldl_max_mem : ∀ (xs : List ℤ) (i x : ℤ), x ∈ xs → x ≤ xs.foldl max i := by
  intro xs
  induction xs with
  | nil => intro i x hx; simp at hx
  | cons z t ih =>
    intro i x hx
    rcases List.mem_cons.mp hx with rfl | hx
    · simp only [List.foldl_cons]
      exact le_trans (le_max_right i x) (le_foldl_max_init t (max i x))
    · exact ih (max i z) x hx

theorem startYear_le {assets : List Asset} {a : Asset} (ha : a ∈ assets) :
    startYear assets ≤ a.purchaseYear := by
  unfold startYear listMinZ
  cases assets with
  | nil => cases ha
  | cons b t =>
    simp only [List.map_cons]
    rcases List.mem_cons.mp ha with rfl | ha
    · exact foldl_min_le_init _ _
    · exact foldl_min_le_mem _ _ _ (List.mem_map_of_mem Asset.purchaseYear ha)

theorem le_endYearMax {assets : List Asset} {a : Asset} (ha : a ∈ assets) :
    a.endYear ≤ endYearMax assets := by
  unfold endYearMax listMaxZ
  cases assets with
  | nil => cases ha
  | cons b t =>
    simp only [List.map_cons]
    rcases List.mem_cons.mp ha with rfl | ha
    · exact le_foldl_max_init _ _
    · exact le_foldl_max_mem _ _ _ (List.mem_map_of_mem Asset.endYear ha)

theorem lookup_map_pairs {assets : List Asset}
    (hnd : (assets.map Asset.name).Nodup) {a : Asset} (ha : a ∈ assets)
    (f : Asset → ℚ) :
    (assets.map (fun b => (b.name, f b))).lookup a.name = some (f a) := by
  induction assets with
  | nil => cases ha
  | cons b t ih =>
    simp only [List.map_cons, List.nodup_cons] at hnd
    rcases List.mem_cons.mp ha with rfl | ha2
    · simp [List.lookup]
    · have hne : (a.name == b.name) = false := by
        rw [beq_eq_false_iff_ne]
        intro he
        exact hnd.1 (he ▸ List.mem_map_of_mem Asset.name ha2)
      simp only [List.map_cons, List.lookup, hne]
      exact ih hnd.2 ha2

theorem asset_range_sum (s : ℤ) (n : ℕ) (p l : ℤ) (v : ℚ)
    (hsl : s ≤ p) (hend : p + l ≤ s + n) (hl : 0 < l) :
    ((yearsFrom s n).map (fun y => if p ≤ y ∧ y ≤ p + l - 1 then v else 0)).sum
      = (l : ℚ) * v := by
  set b := (p - s).toNat with hb
  set m := l.toNat with hm
  have hbz : (b : ℤ) = p - s := Int.toNat_of_nonneg (by omega)
  have hmz : (m : ℤ) = l := Int.toNat_of_nonneg (by omega)
  have hbm : b + m ≤ n := by omega
  have hn : n = b + (m + (n - (b + m))) := by omega
  rw [hn, yearsFrom_append, yearsFrom_append, List.map_append, List.map_append,
    List.sum_append, List.sum_append]
  have h1 : ((yearsFrom s b).map
      (fun y => if p ≤ y ∧ y ≤ p + l - 1 then v else 0)).sum = 0 :=
    sum_indicator_outside (fun y hy => by
      have := mem_yearsFrom.mp hy
      omega)
  have h2 : ((yearsFrom (s + (b : ℤ)) m).map
      (fun y => if p ≤ y ∧ y ≤ p + l - 1 then v else 0)).sum
        = ((yearsFrom (s + (b : ℤ)) m).length : ℚ) * v :=
    sum_indicator_inside (fun y hy => by
      have := mem_yearsFrom.mp hy
      omega)
  have h3 : ((yearsFrom (s + (b : ℤ) + (m : ℤ)) (n - (b + m))).map
      (fun y => if p ≤ y ∧ y ≤ p + l - 1 then v else 0)).sum = 0 :=
    sum_indicator_outside (fun y hy => by
      have := mem_yearsFrom.mp hy
      omega)
  rw [h1, h2, h3, yearsFrom_length]
  have hmq : ((m : ℕ) : ℚ) = (l : ℚ) := by
    exact_mod_cast hmz
  rw [hmq]
  ring

theorem cumsumFrom_getLast (xs : List ℚ) :
    ∀ acc, xs ≠ [] → (cumsumFrom acc xs).getLast? = some (acc + xs.sum) := by
  induction xs with
  | nil => intro acc h; exact absurd rfl h
  | cons x t ih =>
    intro acc _
    cases t with
    | nil => simp [cumsumFrom]
    | cons y u =>
      rw [show cumsumFrom acc (x :: y :: u)
            = (acc + x) :: cumsumFrom (acc + x) (y :: u) from rfl]
      rw [show cumsumFrom (acc + x) (y :: u)
            = (acc + x + y) :: cumsumFrom (acc + x + y) u from rfl]
      rw [List.getLast?_cons_cons,
        show (acc + x + y) :: cumsumFrom (acc + x + y) u
          = cumsumFrom (acc + x) (y :: u) from rfl]
      rw [ih (acc + x) (by simp)]
      simp only [List.sum_cons]
      ring_nf

theorem beq_false_of_isDigit_of_not {c d : Char} (h : c.isDigit = true)
    (hd : d.isDigit = false) : (c == d) = false := by
  by_cases he : c = d
  · subst he
    rw [h] at hd
    exact absurd hd (by simp)
  · simp [he]

theorem takeWhile_append_all {p : Char → Bool} :
    ∀ xs : List Char, (∀ c ∈ xs, p c = true) →
      ∀ ys, (xs ++ ys).takeWhile p = xs ++ ys.takeWhile p := by
  intro xs
  induction xs with
  | nil => intro _ ys; simp
  | cons c cs ih =>
    intro h ys
    have hc : p c = true := h c (List.mem_cons_self c cs)
    simp only [List.cons_append, List.takeWhile_cons, hc, if_true]
    rw [ih (fun d hd => h d (List.mem_cons_of_mem c hd)) ys]

theorem dropWhile_append_all {p : Char → Bool} :
    ∀ xs : List Char, (∀ c ∈ xs, p c = true) →
      ∀ ys, (xs ++ ys).dropWhile p = ys.dropWhile p := by
  intro xs
  induction xs with
  | nil => intro _ ys; simp
  | cons c cs ih =>
    intro h ys
    have hc : p c = true := h c (List.mem_cons_self c cs)
    simp only [List.cons_append, List.dropWhile_cons, hc, if_true]
    exact ih (fun d hd => h d (List.mem_cons_of_mem c hd)) ys

theorem takeWhile_all {p : Char → Bool} {xs : List Char}
    (h : ∀ c ∈ xs, p c = true) : xs.takeWhile p = xs := by
  have := takeWhile_append_all xs h []
  simpa using this

theorem dropWhile_all {p : Char → Bool} {xs : List Char}
    (h : ∀ c ∈ xs, p c = true) : xs.dropWhile p = [] := by
  have := dropWhile_append_all xs h []
  simpa using this

theorem dropWhile_all_false {p : Char → Bool} :
    ∀ {xs : List Char}, (∀ c ∈ xs, p c = false) → xs.dropWhile p = xs := by
  intro xs
  induction xs with
  | nil => intro _; rfl
  | cons c cs _ =>
    intro h
    have hc : p c = false := h c (List.mem_cons_self c cs)
    simp [List.dropWhile_cons, hc]

theorem pyStrip_eq_self {cs : List Char}
    (h : ∀ c ∈ cs, isSpaceChar c = false) : pyStrip cs = cs := by
  unfold pyStrip
  rw [dropWhile_all_false h,
    dropWhile_all_false (fun c hc => h c (List.mem_reverse.mp hc)),
    List.reverse_reverse]

theorem clean_keep {c : Char} (h : c.isDigit = true ∨ c = '.') :
    (!(c == '$' || c == ',' || c == '%')) = true ∧ isSpaceChar c = false := by
  rcases h with h | rfl
  · refine ⟨?_, ?_⟩
    · rw [beq_false_of_isDigit_of_not h (by decide),
        beq_false_of_isDigit_of_not h (by decide),
        beq_false_of_isDigit_of_not h (by decide)]
      rfl
    · unfold isSpaceChar
      rw [beq_false_of_isDigit_of_not h (by decide),
        beq_false_of_isDigit_of_not h (by decide),
        beq_false_of_isDigit_of_not h (by decide),
        beq_false_of_isDigit_of_not h (by decide),
        beq_false_of_isDigit_of_not h (by decide),
        beq_false_of_isDigit_of_not h (by decide)]
      rfl
  · exact ⟨by decide, by decide⟩

theorem pyClean_eq_self {cs : List Char}
    (h : ∀ c ∈ cs, c.isDigit = true ∨ c = '.') : pyClean cs = cs := by
  unfold pyClean
  rw [List.filter_eq_self.mpr (fun c hc => (clean_keep (h c hc)).1)]
  exact pyStrip_eq_self (fun c hc => (clean_keep (h c hc)).2)

theorem not_dot_of_isDigit {c : Char} (h : c.isDigit = true) :
    (!(c == '.')) = true := by
  rw [beq_false_of_isDigit_of_not h (by decide)]
  rfl

theorem pyFloat_digits {xs : List Char} (hne : xs ≠ [])
    (hd : ∀ c ∈ xs, c.isDigit = true) :
    pyFloat? xs = some ((valOfDigits xs : ℚ)) := by
  have hp : ∀ c ∈ xs, (!(c == '.')) = true :=
    fun c hc => not_dot_of_isDigit (hd c hc)
  unfold pyFloat?
  rw [takeWhile_all hp, dropWhile_all hp]
  simp only []
  rw [if_pos ⟨hne, hd⟩]

theorem contains_dot_false {ys : List Char}
    (hy : ∀ c ∈ ys, c.isDigit = true) : ys.contains '.' = false := by
  rcases hcon : ys.contains '.' with _ | _
  · rfl
  · have : '.' ∈ ys := List.mem_of_elem_eq_true hcon
    have := hy _ this
    exact absurd this (by decide)

theorem pyFloat_dot (xs ys : List Char) (hne : xs ≠ [] ∨ ys ≠ [])
    (hx : ∀ c ∈ xs, c.isDigit = true) (hy : ∀ c ∈ ys, c.isDigit = true) :
    pyFloat? (xs ++ '.' :: ys)
      = some ((valOfDigits xs : ℚ) + (valOfDigits ys : ℚ) / 10 ^ ys.length) := by
  have hpx : ∀ c ∈ xs, (!(c == '.')) = true :=
    fun c hc => not_dot_of_isDigit (hx c hc)
  unfold pyFloat?
  rw [takeWhile_append_all xs hpx, dropWhile_append_all xs hpx]
  simp only [List.takeWhile_cons, List.dropWhile_cons,
    show (!('.' == '.')) = false from rfl, Bool.false_eq_true, if_false,
    List.append_nil]
  rw [contains_dot_false hy]
  simp only [Bool.false_eq_true, if_false]
  rw [if_pos ⟨hne, hx, hy⟩]

theorem lookup_eq_none_of_not_mem {k : String} :
    ∀ {l : List (String × PyValue)}, (∀ p ∈ l, p.1 ≠ k) → l.lookup k = none := by
  intro l
  induction l with
  | nil => intro _; rfl
  | cons p t ih =>
    intro h
    have hk : ¬(k == p.1) = true := by
      simp only [beq_iff_eq]
      exact fun he => h p (List.mem_cons_self p t) he.symm
    simp only [List.lookup, Bool.not_eq_true] at hk ⊢
    rw [hk]
    exact ih (fun q hq => h q (List.mem_cons_of_mem p hq))

theorem lookupLast_eq_none {tbl : List (String × PyValue)} {k : String}
    (h : ∀ p ∈ tbl, p.1 ≠ k) : lookupLast tbl k = none := by
  unfold lookupLast
  exact lookup_eq_none_of_not_mem (fun p hp => h p (List.mem_reverse.mp hp))

/-- C4: for every scalar input record, the profit computation yields
`total_cost = supply + other + labor + billing * (0.10 + 0.05 + 0.055 + 0)`,
`net_profit = billing - total_cost`, `profit_margin` and
`labor_cost_percentage` as billing-guarded percentages, and with
`monthly_billing = 0` both percentages are `0` with no division fault. -/
theorem computeProfit_spec (billing supply other labor : ℚ) :
    (computeProfit billing supply other labor).total_cost
        = supply + other + labor + billing * (10 / 100 + 5 / 100 + 55 / 1000 + 0) ∧
    (computeProfit billing supply other labor).net_profit
        = billing - (computeProfit billing supply other labor).total_cost ∧
    (computeProfit billing supply other labor).profit_margin
        = (if 0 < billing
           then (computeProfit billing supply other labor).net_profit / billing * 100
           else 0) ∧
    (computeProfit billing supply other labor).labor_cost_percentage
        = (if 0 < billing then labor / billing * 100 else 0) ∧
    (computeProfit 0 supply other labor).profit_margin = 0 ∧
    (computeProfit 0 supply other labor).labor_cost_percentage = 0 := by
  refine ⟨?_, rfl, rfl, rfl, ?_, ?_⟩
  · simp only [computeProfit, royalty_rate, management_fee_rate, insurance_rate,
      commission_rate]
    ring
  · simp [computeProfit]
  · simp [computeProfit]

/-- C5: the upgrade computation follows the seven-step linear pipeline with a
zero guard on the payment term, and the spec's worked example
(billing 5000, multiplier 4, credits 1000, down payment 25%, interest 10%,
12 terms) yields a monthly payment of 1306.25. -/
theorem computeUpgrade_spec (billing multiplier credits dp_pct rate : ℚ)
    (terms : ℤ) :
    (computeUpgrade billing multiplier credits dp_pct rate terms).upgrade_total
        = billing * multiplier ∧
    (computeUpgrade billing multiplier credits dp_pct rate terms).net_after_credits
        = billing * multiplier - credits ∧
    (computeUpgrade billing multiplier credits dp_pct rate terms).dp_amount
        = (billing * multiplier - credits) * dp_pct / 100 ∧
    (computeUpgrade billing multiplier credits dp_pct rate terms).amt_financed_base
        = (billing * multiplier - credits)
            - (billing * multiplier - credits) * dp_pct / 100 ∧
    (computeUpgrade billing multiplier credits dp_pct rate terms).interest_amt
        = (computeUpgrade billing multiplier credits dp_pct rate terms).amt_financed_base
            * rate / 100 ∧
    (computeUpgrade billing multiplier credits dp_pct rate terms).total_financed
        = (computeUpgrade billing multiplier credits dp_pct rate terms).amt_financed_base
            + (computeUpgrade billing multiplier credits dp_pct rate terms).interest_amt ∧
    (computeUpgrade billing multiplier credits dp_pct rate terms).monthly_payment
        = (if 0 < terms
           then (computeUpgrade billing multiplier credits dp_pct rate terms).total_financed
                  / (terms : ℚ)
           else 0) ∧
    (computeUpgrade billing multiplier credits dp_pct rate 0).monthly_payment = 0 ∧
    (computeUpgrade 5000 4 1000 25 10 12).monthly_payment = 1306.25 := by
  refine ⟨rfl, rfl, rfl, rfl, rfl, rfl, rfl, ?_, ?_⟩
  · simp [computeUpgrade]
  · norm_num [computeUpgrade]

/-- C7: both numeric import parsers are total: numbers pass through, a
missing cell yields `0.0`, strings are stripped of dollar signs, commas and
percent signs and converted, and any string whose cleaned form still fails
conversion yields `0.0` instead of an exception. -/
theorem parse_money_number_spec (q : ℚ) (s : String) :
    parseMoney (.num q) = q ∧
    parseNumber (.num q) = q ∧
    parseMoney .pnull = 0 ∧
    parseNumber .pnull = 0 ∧
    parseMoney (.str s) = (pyFloat? (pyClean s.data)).getD 0 ∧
    parseNumber (.str s) = parseMoney (.str s) ∧
    (pyFloat? (pyClean s.data) = none → parseMoney (.str s) = 0) := by
  refine ⟨rfl, rfl, rfl, by decide, ?_, rfl, ?_⟩
  · simp only [parseMoney, parseMoneyChars]
    cases pyFloat? (pyClean s.data) <;> rfl
  · intro h
    simp [parseMoney, parseMoneyChars, h]

/-- C7 witness: the parsers at concrete inputs — a number passes through,
`"$1,234.56"` cleans and converts, garbage falls back to `0.0`. -/
theorem parse_money_number_spec_witness :
    parseMoney (.num 5) = 5 ∧
    pyFloat? (pyClean garbageStr.data) = none ∧
    parseMoney (.str garbageStr) = 0 ∧
    parseMoney (.str sampleMoneyStr) = 123456 / 100 := by
  refine ⟨(parse_money_number_spec 5 garbageStr).1, by decide, ?_, ?_⟩
  · exact (parse_money_number_spec 5 garbageStr).2.2.2.2.2.2 (by decide)
  · have hc : pyClean sampleMoneyStr.data = [ '1', '2', '3', '4', '.', '5', '6' ] := by
      decide
    have h2 := pyFloat_dot [ '1', '2', '3', '4' ] [ '5', '6' ]
      (Or.inl (by decide)) (by decide) (by decide)
    have hv1 : valOfDigits [ '1', '2', '3', '4' ] = 1234 := by decide
    have hv2 : valOfDigits [ '5', '6' ] = 56 := by decide
    simp only [parseMoney, parseMoneyChars, hc]
    rw [show ([ '1', '2', '3', '4', '.', '5', '6' ] : List Char)
          = [ '1', '2', '3', '4' ] ++ '.' :: [ '5', '6' ] from rfl, h2]
    rw [hv1, hv2]
    norm_num

/-- C8 counterexample: the Upgrade Fee import looks up only five labels and
never a down-payment label; with the down-payment percentage changed to 40
before importing a table that lacks every label, the claimed reset to the
component default 25 does not happen. -/
theorem handleUpload_dp_cex :
    (handleUpload [] { defaultState with dp_pct := 40 }).dp_pct = 40 ∧
    ((40 : ℚ) ≠ 25) := by
  exact ⟨rfl, by decide⟩

/-- C8 (amended): the import reconstructs exactly five fields — billing,
multiplier, credits, interest rate and terms — each defaulting to the
component's own default (0, 4, 0, 10, 0) when its label is absent, while
`dp_pct` is not part of the import and keeps its pre-import session value. -/
theorem handleUpload_defaults (tbl : List (String × PyValue)) (st : UState) :
    (handleUpload tbl st).dp_pct = st.dp_pct ∧
    (lookupLast tbl billingLbl = none → (handleUpload tbl st).billing = 0) ∧
    (lookupLast tbl multiplierLbl = none → (handleUpload tbl st).multiplier = 4) ∧
    (lookupLast tbl creditsLbl = none → (handleUpload tbl st).credits = 0) ∧
    (lookupLast tbl interestLbl = none → (handleUpload tbl st).interest_rate = 10) ∧
    (lookupLast tbl termsLbl = none → (handleUpload tbl st).terms = 0) := by
  refine ⟨rfl, ?_, ?_, ?_, ?_, ?_⟩ <;>
    · intro h
      simp [handleUpload, h, parseNumber, pyIntTrunc]

/-- C8 witness: importing a table that carries only a multiplier row leaves
a modified down payment of 40 in place and resets the other four fields to
their component defaults. -/
theorem handleUpload_defaults_witness :
    (handleUpload sampleUploadTbl { defaultState with dp_pct := 40 }).dp_pct = 40 ∧
    (handleUpload sampleUploadTbl { defaultState with dp_pct := 40 }).billing = 0 ∧
    (handleUpload sampleUploadTbl { defaultState with dp_pct := 40 }).interest_rate = 10 := by
  have h := handleUpload_defaults sampleUploadTbl { defaultState with dp_pct := 40 }
  exact ⟨h.1, h.2.1 (by decide), h.2.2.2.2.1 (by decide)⟩

/-- C10: the Upgrade Fee import never touches the down-payment percentage;
whenever the table has no `Interest Rate %` row the interest rate is set to
10.0 regardless of the file's values, and in particular every table whose
labels all come from this tool's own eleven export labels (which do not
include `Interest Rate %`) triggers that default. -/
theorem handleUpload_frame (tbl : List (String × PyValue)) (st : UState) :
    (handleUpload tbl st).dp_pct = st.dp_pct ∧
    (lookupLast tbl interestLbl = none →
      (handleUpload tbl st).interest_rate = 10) ∧
    interestLbl ∉ exportDescriptions ∧
    ((∀ p ∈ tbl, p.1 ∈ exportDescriptions) →
      (handleUpload tbl st).interest_rate = 10) := by
  refine ⟨rfl, ?_, by decide, ?_⟩
  · intro h
    simp [handleUpload, h, parseNumber]
  · intro h
    have hnone : lookupLast tbl interestLbl = none := by
      refine lookupLast_eq_none (fun p hp he => ?_)
      have : interestLbl ∈ exportDescriptions := he ▸ h p hp
      revert this
      decide
    simp [handleUpload, hnone, parseNumber]

/-- C10 witness: a table holding only an exported `Multiplier` row leaves a
down payment of 40 untouched and forces the interest rate back to 10. -/
theorem handleUpload_frame_witness :
    (handleUpload sampleUploadTbl { defaultState with dp_pct := 40 }).dp_pct = 40 ∧
    (handleUpload sampleUploadTbl { defaultState with dp_pct := 40 }).interest_rate = 10 := by
  have h := handleUpload_frame sampleUploadTbl { defaultState with dp_pct := 40 }
  exact ⟨h.1, h.2.2.2 (by decide)⟩

/-- C9 counterexample: calling the schedule generator on a one-asset table
hands back the caller's table with an `End Year` column it did not have
before — the call is not free of side effects on its input. -/
theorem generateCalendarSchedule_mutates :
    (generateCalendarSchedule ⟨[exampleAsset], false⟩).1
      ≠ (⟨[exampleAsset], false⟩ : AssetsDF) := by
  decide

/-- C9 (amended): the schedule generator leaves every existing value of the
caller's asset table unchanged and its output is a function of the input rows
alone, but on a nonempty input it adds the derived `End Year` column to the
caller's table in place. -/
theorem generateCalendarSchedule_frame (df : AssetsDF) :
    (generateCalendarSchedule df).1.assets = df.assets ∧
    (generateCalendarSchedule df).1.hasEndYear
        = (df.hasEndYear || !df.assets.isEmpty) ∧
    (generateCalendarSchedule df).2
        = (if df.assets.isEmpty then [] else scheduleRows df.assets) := by
  by_cases h : df.assets.isEmpty
  · simp [generateCalendarSchedule, h]
  · simp [generateCalendarSchedule, h]

/-- C1: for every nonempty asset list with positive useful lives, exact
rational arithmetic makes the generated schedule's total annual depreciation
column sum to the sum of the asset costs, and the last entry of the
cumulative depreciation column equals that same sum. -/
theorem schedule_total_conservation (assets : List Asset)
    (hne : assets ≠ []) (hpos : ∀ a ∈ assets, 0 < a.life) :
    ((scheduleRows assets).map YearRow.total).sum = (assets.map Asset.cost).sum ∧
    (cumsum ((scheduleRows assets).map YearRow.total)).getLast?
      = some ((assets.map Asset.cost).sum) := by
  obtain ⟨a0, ha0⟩ : ∃ a, a ∈ assets := by
    cases assets with
    | nil => exact absurd rfl hne
    | cons a t => exact ⟨a, List.mem_cons_self a t⟩
  have hS : startYear assets ≤ endYearMax assets := by
    have h1 := startYear_le ha0
    have h2 := le_endYearMax ha0
    have h3 := hpos a0 ha0
    unfold Asset.endYear at h2
    omega
  have hNz : (((endYearMax assets - startYear assets + 1).toNat : ℤ))
      = endYearMax assets - startYear assets + 1 := Int.toNat_of_nonneg (by omega)
  have htot : ((scheduleRows assets).map YearRow.total).sum
      = (assets.map Asset.cost).sum := by
    unfold scheduleRows
    rw [List.map_map]
    have hshape : ((yearsFrom (startYear assets)
          (endYearMax assets - startYear assets + 1).toNat).map
            (YearRow.total ∘ yearRow assets))
        = ((yearsFrom (startYear assets)
          (endYearMax assets - startYear assets + 1).toNat).map
            (fun y => (assets.map (contrib y)).sum)) := rfl
    rw [hshape, sum_swapQ]
    refine congrArg List.sum (List.map_congr_left ?_)
    intro a ha
    have hcontrib : ((yearsFrom (startYear assets)
          (endYearMax assets - startYear assets + 1).toNat).map
            (fun y => contrib y a))
        = ((yearsFrom (startYear assets)
          (endYearMax assets - startYear assets + 1).toNat).map
            (fun y => if a.purchaseYear ≤ y ∧ y ≤ a.purchaseYear + a.life - 1
                      then annualDep a else 0)) := by
      refine List.map_congr_left (fun y _ => ?_)
      unfold contrib Asset.endYear
      rfl
    rw [hcontrib, asset_range_sum _ _ _ _ _ (startYear_le ha)
        (by
          have h2 := le_endYearMax ha
          unfold Asset.endYear at h2
          omega)
        (hpos a ha)]
    unfold annualDep
    rw [mul_comm, div_mul_cancel₀]
    exact Int.cast_ne_zero.mpr (by have := hpos a ha; omega)
  refine ⟨htot, ?_⟩
  have hrows : ((scheduleRows assets).map YearRow.total) ≠ [] := by
    unfold scheduleRows
    rcases hN : (endYearMax assets - startYear assets + 1).toNat with _ | n
    · omega
    · simp [yearsFrom]
  unfold cumsum
  rw [cumsumFrom_getLast _ 0 hrows, htot]
  norm_num

/-- C1 witness: the spec's own example asset (cost 10000, purchased 2024,
five-year life) fully allocates its cost: totals sum to 10000 and the final
cumulative value is 10000. -/
theorem schedule_total_conservation_witness :
    ((scheduleRows [exampleAsset]).map YearRow.total).sum
        = ([exampleAsset].map Asset.cost).sum ∧
    (cumsum ((scheduleRows [exampleAsset]).map YearRow.total)).getLast?
        = some (([exampleAsset].map Asset.cost).sum) :=
  schedule_total_conservation [exampleAsset]
    (by exact List.cons_ne_nil _ _)
    (by
      intro a ha
      rcases List.mem_singleton.mp ha with rfl
      decide)

/-- C2: the schedule generator returns the empty result on an empty asset
table; otherwise it emits exactly one row per integer year from the minimum
purchase year to the maximum end year inclusive, in strictly ascending year
order, and in every row each (distinctly named) asset's column carries
`cost / useful_life` during its depreciation window and an explicit `0`
outside it. -/
theorem scheduleRows_shape (assets : List Asset) (df : AssetsDF)
    (hne : assets ≠ []) (hpos : ∀ a ∈ assets, 0 < a.life)
    (hnd : (assets.map Asset.name).Nodup) :
    (df.assets = [] → (generateCalendarSchedule df).2 = []) ∧
    ((scheduleRows assets).map YearRow.year)
        = yearsFrom (startYear assets)
            (endYearMax assets - startYear assets + 1).toNat ∧
    ((scheduleRows assets).map YearRow.year).Pairwise (· < ·) ∧
    (∀ y : ℤ, y ∈ (scheduleRows assets).map YearRow.year ↔
        startYear assets ≤ y ∧ y ≤ endYearMax assets) ∧
    (∀ a ∈ assets, ∀ r ∈ scheduleRows assets,
        r.perAsset.lookup a.name
          = some (if a.purchaseYear ≤ r.year ∧ r.year ≤ a.endYear
                  then a.cost / (a.life : ℚ) else 0)) := by
  obtain ⟨a0, ha0⟩ : ∃ a, a ∈ assets := by
    cases assets with
    | nil => exact absurd rfl hne
    | cons a t => exact ⟨a, List.mem_cons_self a t⟩
  have hS : startYear assets ≤ endYearMax assets := by
    have h1 := startYear_le ha0
    have h2 := le_endYearMax ha0
    have h3 := hpos a0 ha0
    unfold Asset.endYear at h2
    omega
  have hNz : (((endYearMax assets - startYear assets + 1).toNat : ℤ))
      = endYearMax assets - startYear assets + 1 := Int.toNat_of_nonneg (by omega)
  have hyears : ((scheduleRows assets).map YearRow.year)
      = yearsFrom (startYear assets)
          (endYearMax assets - startYear assets + 1).toNat := by
    unfold scheduleRows
    rw [List.map_map]
    have : (YearRow.year ∘ yearRow assets) = fun y : ℤ => y := by
      funext y
      rfl
    rw [this, List.map_id']
  refine ⟨?_, hyears, ?_, ?_, ?_⟩
  · intro h
    simp [generateCalendarSchedule, h]
  · rw [hyears]
    exact yearsFrom_pairwise _ _
  · intro y
    rw [hyears, mem_yearsFrom]
    omega
  · intro a ha r hr
    unfold scheduleRows at hr
    obtain ⟨y, _, rfl⟩ := List.mem_map.mp hr
    have : (yearRow assets y).perAsset
        = assets.map (fun b => (b.name, contrib y b)) := rfl
    rw [this, lookup_map_pairs hnd ha (contrib y)]
    rfl

/-- C2 witness: the one-asset example table produces rows for 2024-2028 in
order, with the asset column equal to 2000 in each of those years. -/
theorem scheduleRows_shape_witness :
    ((scheduleRows [exampleAsset]).map YearRow.year)
        = yearsFrom (startYear [exampleAsset])
            (endYearMax [exampleAsset] - startYear [exampleAsset] + 1).toNat ∧
    (∀ a ∈ [exampleAsset], ∀ r ∈ scheduleRows [exampleAsset],
        r.perAsset.lookup a.name
          = some (if a.purchaseYear ≤ r.year ∧ r.year ≤ a.endYear
                  then a.cost / (a.life : ℚ) else 0)) := by
  have h := scheduleRows_shape [exampleAsset] ⟨[], false⟩
    (List.cons_ne_nil _ _)
    (by
      intro a ha
      rcases List.mem_singleton.mp ha with rfl
      decide)
    (by simp)
  exact ⟨h.2.1, h.2.2.2.2⟩

theorem isPrefixOf_append_self : ∀ l s : List Char, l.isPrefixOf (l ++ s) = true := by
  intro l
  induction l with
  | nil => intro s; simp [List.isPrefixOf]
  | cons a as ih =>
    intro s
    simp only [List.cons_append, List.isPrefixOf]
    simp [ih s]

theorem tryAt_none_of_notPrefix {label : List Char} {d : Bool} {a : Char → Bool}
    {s : List Char} (h : label.isPrefixOf s = false) :
    tryAt label d a s = none := by
  unfold tryAt
  rw [h]
  rfl

theorem searchGroup_cons_eq (label : List Char) (d : Bool) (a : Char → Bool)
    (c : Char) (rest : List Char) :
    searchGroup label d a (c :: rest)
      = (match tryAt label d a (c :: rest) with
         | some g => some g
         | none => searchGroup label d a rest) := rfl

theorem searchGroup_cons_notPrefix {label : List Char} {d : Bool}
    {a : Char → Bool} {c : Char} {rest : List Char}
    (h : label.isPrefixOf (c :: rest) = false) :
    searchGroup label d a (c :: rest) = searchGroup label d a rest := by
  rw [searchGroup_cons_eq, tryAt_none_of_notPrefix h]

theorem isPrefixOf_cons_false {lh c : Char} {lt rest : List Char}
    (hc : c ≠ lh) : (lh :: lt).isPrefixOf (c :: rest) = false := by
  simp only [List.isPrefixOf]
  rw [beq_eq_false_iff_ne.mpr (fun he => hc he.symm)]
  rfl

theorem searchGroup_cons_ne {lh c : Char} {lt rest : List Char} {d : Bool}
    {a : Char → Bool} (hc : c ≠ lh) :
    searchGroup (lh :: lt) d a (c :: rest) = searchGroup (lh :: lt) d a rest :=
  searchGroup_cons_notPrefix (isPrefixOf_cons_false hc)

theorem searchGroup_append_ne {lh : Char} {lt : List Char} {d : Bool}
    {a : Char → Bool} :
    ∀ cs : List Char, (∀ c ∈ cs, c ≠ lh) → ∀ s,
      searchGroup (lh :: lt) d a (cs ++ s) = searchGroup (lh :: lt) d a s := by
  intro cs
  induction cs with
  | nil => intro _ s; rfl
  | cons c t ih =>
    intro h s
    rw [List.cons_append, searchGroup_cons_ne (h c (List.mem_cons_self c t))]
    exact ih (fun z hz => h z (List.mem_cons_of_mem c hz)) s

theorem searchGroup_of_tryAt_some {label : List Char} {d : Bool}
    {a : Char → Bool} {s g : List Char} (hlab : label ≠ [])
    (h : tryAt label d a s = some g) :
    searchGroup label d a s = some g := by
  cases s with
  | nil =>
    rw [tryAt_none_of_notPrefix] at h
    · cases h
    · cases label with
      | nil => exact absurd rfl hlab
      | cons x xs => simp [List.isPrefixOf]
  | cons c rest =>
    rw [searchGroup_cons_eq, h]

theorem takeWhile_append_stop {a : Char → Bool} {g tail : List Char}
    (hga : ∀ c ∈ g, a c = true)
    (htail : ∀ tc tr, tail = tc :: tr → a tc = false) :
    (g ++ tail).takeWhile a = g := by
  rw [takeWhile_append_all g hga]
  cases tail with
  | nil => simp
  | cons tc tr => simp [List.takeWhile_cons, htail tc tr rfl]

theorem tryAt_found_nodollar {label : List Char} {a : Char → Bool}
    {g tail : List Char} (hg : g ≠ []) (hga : ∀ c ∈ g, a c = true)
    (hgs : ∀ c ∈ g, isSpaceChar c = false)
    (htail : ∀ tc tr, tail = tc :: tr → a tc = false) :
    tryAt label false a (label ++ ' ' :: (g ++ tail)) = some g := by
  unfold tryAt
  rw [if_pos (isPrefixOf_append_self label _)]
  rw [List.drop_left]
  have hdw : (' ' :: (g ++ tail)).dropWhile isSpaceChar = g ++ tail := by
    cases g with
    | nil => exact absurd rfl hg
    | cons gc gr =>
      simp only [List.dropWhile_cons, show isSpaceChar ' ' = true from rfl,
        if_true, List.cons_append]
      rw [if_neg]
      rw [hgs gc (List.mem_cons_self gc gr)]
      simp
  rw [hdw]
  simp only [Bool.false_eq_true, if_false]
  rw [takeWhile_append_stop hga htail]
  cases g with
  | nil => exact absurd rfl hg
  | cons gc gr => rfl

theorem tryAt_found_dollar {label : List Char} {a : Char → Bool}
    {g tail : List Char} (hg : g ≠ []) (hga : ∀ c ∈ g, a c = true)
    (hgs : ∀ c ∈ g, isSpaceChar c = false)
    (htail : ∀ tc tr, tail = tc :: tr → a tc = false) :
    tryAt label true a (label ++ ' ' :: '$' :: (g ++ tail)) = some g := by
  unfold tryAt
  rw [if_pos (isPrefixOf_append_self label _)]
  rw [List.drop_left]
  have hdw : (' ' :: '$' :: (g ++ tail)).dropWhile isSpaceChar
      = '$' :: (g ++ tail) := by
    simp only [List.dropWhile_cons, show isSpaceChar ' ' = true from rfl,
      if_true, show isSpaceChar '$' = false from rfl]
    simp
  rw [hdw]
  simp only [if_true]
  rw [takeWhile_append_stop hga htail]
  cases g with
  | nil => exact absurd rfl hg
  | cons gc gr => rfl

theorem numChar_of {c : Char} (h : c.isDigit = true ∨ c = '.') :
    numChar c = true := by
  rcases h with h | rfl
  · simp [numChar, h]
  · rfl

theorem moneyChar_of {c : Char} (h : c.isDigit = true ∨ c = '.' ∨ c = ',') :
    moneyChar c = true := by
  rcases h with h | rfl | rfl
  · simp [moneyChar, h]
  · rfl
  · rfl

theorem money_to_clean {c : Char} (h : c.isDigit = true ∨ c = '.' ∨ c = ',') :
    isSpaceChar c = false := by
  rcases h with h | rfl | rfl
  · exact (clean_keep (Or.inl h)).2
  · rfl
  · rfl

theorem ne_of_digit_dot {c x : Char} (h : c.isDigit = true ∨ c = '.')
    (hx : x.isDigit = false) (hxd : x ≠ '.') : c ≠ x := by
  rcases h with h | rfl
  · intro he
    subst he
    rw [h] at hx
    cases hx
  · exact fun he => hxd he.symm

theorem ne_of_money {c x : Char} (h : c.isDigit = true ∨ c = '.' ∨ c = ',')
    (hx : x.isDigit = false) (hxd : x ≠ '.') (hxc : x ≠ ',') : c ≠ x := by
  rcases h with h | rfl | rfl
  · exact ne_of_digit_dot (Or.inl h) hx hxd
  · exact fun he => hxd he.symm
  · exact fun he => hxc he.symm

theorem pyRepr_chars (m k : ℕ) :
    ∀ c ∈ pyReprChars m k, c.isDigit = true ∨ c = '.' := by
  intro c hc
  unfold pyReprChars at hc
  rcases hmk : canonShift m k with ⟨a, b⟩
  rw [hmk] at hc
  dsimp only at hc
  by_cases hb : b = 0
  · rw [if_pos hb] at hc
    rcases List.mem_append.mp hc with hc | hc
    · exact Or.inl (natDigits_all_isDigit _ c hc)
    · rcases List.mem_cons.mp hc with rfl | hc
      · exact Or.inr rfl
      · rcases List.mem_singleton.mp hc with rfl
        exact Or.inl rfl
  · rw [if_neg hb] at hc
    rcases List.mem_append.mp hc with hc | hc
    · rcases List.mem_append.mp hc with hc | hc
      · exact Or.inl (natDigits_all_isDigit _ c hc)
      · rcases List.mem_singleton.mp hc with rfl
        exact Or.inr rfl
    · unfold padZeros at hc
      rcases List.mem_append.mp hc with hc | hc
      · rcases (List.mem_replicate.mp hc).2 with rfl
        exact Or.inl rfl
      · exact Or.inl (natDigits_all_isDigit _ c hc)

theorem pyRepr_ne_nil (m k : ℕ) : pyReprChars m k ≠ [] := by
  unfold pyReprChars
  rcases hmk : canonShift m k with ⟨a, b⟩
  dsimp only
  by_cases hb : b = 0
  · rw [if_pos hb]
    intro h
    rcases List.append_eq_nil.mp h with ⟨h1, _⟩
    exact natDigits_ne_nil _ h1
  · rw [if_neg hb]
    intro h
    rcases List.append_eq_nil.mp h with ⟨h1, _⟩
    rcases List.append_eq_nil.mp h1 with ⟨h2, _⟩
    exact natDigits_ne_nil _ h2

theorem mem_commaGroupRev_aux : ∀ (n : ℕ) (cs : List Char), cs.length ≤ n →
    ∀ z ∈ commaGroupRev cs, z ∈ cs ∨ z = ',' := by
  intro n
  induction n with
  | zero =>
    intro cs hlen z hz
    have hcs : cs = [] := by
      cases cs with
      | nil => rfl
      | cons a t => simp at hlen
    subst hcs
    simp [commaGroupRev] at hz
  | succ n ih =>
    intro cs hlen z hz
    rcases cs with _ | ⟨a, _ | ⟨b, _ | ⟨c, _ | ⟨d, rest⟩⟩⟩⟩
    · simp [commaGroupRev] at hz
    · simp only [commaGroupRev] at hz
      exact Or.inl hz
    · simp only [commaGroupRev] at hz
      exact Or.inl hz
    · simp only [commaGroupRev] at hz
      exact Or.inl hz
    · simp only [commaGroupRev] at hz
      rcases List.mem_cons.mp hz with rfl | hz
      · exact Or.inl (by simp)
      · rcases List.mem_cons.mp hz with rfl | hz
        · exact Or.inl (by simp)
        · rcases List.mem_cons.mp hz with rfl | hz
          · exact Or.inl (by simp)
          · rcases List.mem_cons.mp hz with rfl | hz
            · exact Or.inr rfl
            · have hlen2 : (d :: rest).length ≤ n := by
                simp at hlen ⊢
                omega
              rcases ih (d :: rest) hlen2 z hz with h | h
              · rcases List.mem_cons.mp h with rfl | h
                · exact Or.inl (by simp)
                · exact Or.inl (by simp [h])
              · exact Or.inr h

theorem mem_commaGroupRev {cs : List Char} {z : Char}
    (hz : z ∈ commaGroupRev cs) : z ∈ cs ∨ z = ',' :=
  mem_commaGroupRev_aux cs.length cs (le_refl _) z hz

theorem ne_of_mem_lit {c x : Char} {l : List Char} (hc : c ∈ l)
    (hall : l.all (fun d => !(d == x)) = true) : c ≠ x := by
  have := List.all_eq_true.mp hall c hc
  simpa using this

theorem wageM_render {W H N K T : List Char} (hW : MoneyStr W) :
    wageM (renderDetailChars W H N K T) = some W := by
  have hshape : renderDetailChars W H N K T
      = wageLbl ++ ' ' :: '$' ::
          (W ++ (hoursPre ++ (H ++ (nightsPre ++ (N ++ (weeksPre
            ++ (K ++ (totalPre ++ T)))))))) := by
    simp [renderDetailChars, wageLbl, wagePre, List.append_assoc]
  rw [show wageM (renderDetailChars W H N K T)
        = searchGroup wageLbl true moneyChar (renderDetailChars W H N K T)
      from rfl, hshape]
  apply searchGroup_of_tryAt_some (by simp [wageLbl])
  apply tryAt_found_dollar hW.1
    (fun c hc => moneyChar_of (hW.2 c hc))
    (fun c hc => money_to_clean (hW.2 c hc))
  intro tc tr h
  unfold hoursPre at h
  rw [List.cons_append] at h
  injection h with h1 _
  rw [← h1]
  rfl

theorem hoursM_render {W H N K T : List Char} (hW : MoneyStr W)
    (hH : NumStr H) :
    hoursM (renderDetailChars W H N K T) = some H := by
  have hshape : renderDetailChars W H N K T
      = (wagePre ++ (W ++ [ '/', 'h', 'r', ',', ' ' ]))
          ++ (hoursLbl ++ ' ' ::
            (H ++ (nightsPre ++ (N ++ (weeksPre
              ++ (K ++ (totalPre ++ T))))))) := by
    simp [renderDetailChars, hoursLbl, hoursPre, List.append_assoc]
  rw [show hoursM (renderDetailChars W H N K T)
        = searchGroup hoursLbl false numChar (renderDetailChars W H N K T)
      from rfl, hshape,
    show (hoursLbl : List Char) = 'H' :: [ 'o', 'u', 'r', 's', ':' ] from rfl]
  rw [searchGroup_append_ne _ ?hne _]
  case hne =>
    intro c hc
    rcases List.mem_append.mp hc with hc | hc
    · exact ne_of_mem_lit hc (by decide)
    · rcases List.mem_append.mp hc with hc | hc
      · exact ne_of_money (hW.2 c hc) (by decide) (by decide) (by decide)
      · exact ne_of_mem_lit hc (by decide)
  apply searchGroup_of_tryAt_some (by simp)
  apply tryAt_found_nodollar hH.1
    (fun c hc => numChar_of (hH.2 c hc))
    (fun c hc => (clean_keep (hH.2 c hc)).2)
  intro tc tr h
  unfold nightsPre at h
  rw [List.cons_append] at h
  injection h with h1 _
  rw [← h1]
  rfl

theorem nightsM_render {W H N K T : List Char} (hW : MoneyStr W)
    (hH : NumStr H) (hN : NumStr N) :
    nightsM (renderDetailChars W H N K T) = some N := by
  have hshape : renderDetailChars W H N K T
      = (wagePre ++ (W ++ (hoursPre ++ (H ++ [ ',', ' ' ]))))
          ++ (nightsLbl ++ ' ' ::
            (N ++ (weeksPre ++ (K ++ (totalPre ++ T))))) := by
    simp [renderDetailChars, nightsLbl, nightsPre, List.append_assoc]
  rw [show nightsM (renderDetailChars W H N K T)
        = searchGroup nightsLbl false numChar (renderDetailChars W H N K T)
      from rfl, hshape,
    show (nightsLbl : List Char) = 'N' :: [ 'i', 'g', 'h', 't', 's', ':' ] from rfl]
  rw [searchGroup_append_ne _ ?hne _]
  case hne =>
    intro c hc
    rcases List.mem_append.mp hc with hc | hc
    · exact ne_of_mem_lit hc (by decide)
    · rcases List.mem_append.mp hc with hc | hc
      · exact ne_of_money (hW.2 c hc) (by decide) (by decide) (by decide)
      · rcases List.mem_append.mp hc with hc | hc
        · exact ne_of_mem_lit hc (by decide)
        · rcases List.mem_append.mp hc with hc | hc
          · exact ne_of_digit_dot (hH.2 c hc) (by decide) (by decide)
          · exact ne_of_mem_lit hc (by decide)
  apply searchGroup_of_tryAt_some (by simp)
  apply tryAt_found_nodollar hN.1
    (fun c hc => numChar_of (hN.2 c hc))
    (fun c hc => (clean_keep (hN.2 c hc)).2)
  intro tc tr h
  unfold weeksPre at h
  rw [List.cons_append] at h
  injection h with h1 _
  rw [← h1]
  rfl

theorem weeksM_render {W H N K T : List Char} (hW : MoneyStr W)
    (hH : NumStr H) (hN : NumStr N) (hK : NumStr K) :
    weeksM (renderDetailChars W H N K T) = some K := by
  have hshape : renderDetailChars W H N K T
      = 'W' :: (([ 'a', 'g', 'e', ':', ' ', '$' ]
          ++ (W ++ (hoursPre ++ (H ++ (nightsPre ++ (N ++ [ ',', ' ' ]))))))
          ++ (weeksLbl ++ ' ' :: (K ++ (totalPre ++ T)))) := by
    simp [renderDetailChars, weeksLbl, weeksPre, wagePre, List.append_assoc]
  rw [show weeksM (renderDetailChars W H N K T)
        = searchGroup weeksLbl false numChar (renderDetailChars W H N K T)
      from rfl, hshape]
  rw [searchGroup_cons_notPrefix (by
    simp [weeksLbl, List.isPrefixOf, List.cons_append])]
  rw [show (weeksLbl : List Char) = 'W' :: [ 'e', 'e', 'k', 's', ':' ] from rfl]
  rw [searchGroup_append_ne _ ?hne _]
  case hne =>
    intro c hc
    rcases List.mem_append.mp hc with hc | hc
    · exact ne_of_mem_lit hc (by decide)
    · rcases List.mem_append.mp hc with hc | hc
      · exact ne_of_money (hW.2 c hc) (by decide) (by decide) (by decide)
      · rcases List.mem_append.mp hc with hc | hc
        · exact ne_of_mem_lit hc (by decide)
        · rcases List.mem_append.mp hc with hc | hc
          · exact ne_of_digit_dot (hH.2 c hc) (by decide) (by decide)
          · rcases List.mem_append.mp hc with hc | hc
            · exact ne_of_mem_lit hc (by decide)
            · rcases List.mem_append.mp hc with hc | hc
              · exact ne_of_digit_dot (hN.2 c hc) (by decide) (by decide)
              · exact ne_of_mem_lit hc (by decide)
  apply searchGroup_of_tryAt_some (by simp)
  apply tryAt_found_nodollar hK.1
    (fun c hc => numChar_of (hK.2 c hc))
    (fun c hc => (clean_keep (hK.2 c hc)).2)
  intro tc tr h
  unfold totalPre at h
  rw [List.cons_append] at h
  injection h with h1 _
  rw [← h1]
  rfl

theorem totalM_render {W H N K T : List Char} (hW : MoneyStr W)
    (hH : NumStr H) (hN : NumStr N) (hK : NumStr K) (hT : MoneyStr T) :
    totalM (renderDetailChars W H N K T) = some T := by
  have hshape : renderDetailChars W H N K T
      = (wagePre ++ (W ++ (hoursPre ++ (H ++ (nightsPre
          ++ (N ++ (weeksPre ++ (K ++ [ ',', ' ' ]))))))))
          ++ (totalLbl ++ ' ' :: '$' :: (T ++ [])) := by
    simp [renderDetailChars, totalLbl, totalPre, List.append_assoc]
  rw [show totalM (renderDetailChars W H N K T)
        = searchGroup totalLbl true moneyChar (renderDetailChars W H N K T)
      from rfl, hshape,
    show (totalLbl : List Char) = 'T' :: [ 'o', 't', 'a', 'l', ':' ] from rfl]
  rw [searchGroup_append_ne _ ?hne _]
  case hne =>
    intro c hc
    rcases List.mem_append.mp hc with hc | hc
    · exact ne_of_mem_lit hc (by decide)
    · rcases List.mem_append.mp hc with hc | hc
      · exact ne_of_money (hW.2 c hc) (by decide) (by decide) (by decide)
      · rcases List.mem_append.mp hc with hc | hc
        · exact ne_of_mem_lit hc (by decide)
        · rcases List.mem_append.mp hc with hc | hc
          · exact ne_of_digit_dot (hH.2 c hc) (by decide) (by decide)
          · rcases List.mem_append.mp hc with hc | hc
            · exact ne_of_mem_lit hc (by decide)
            · rcases List.mem_append.mp hc with hc | hc
              · exact ne_of_digit_dot (hN.2 c hc) (by decide) (by decide)
              · rcases List.mem_append.mp hc with hc | hc
                · exact ne_of_mem_lit hc (by decide)
                · rcases List.mem_append.mp hc with hc | hc
                  · exact ne_of_digit_dot (hK.2 c hc) (by decide) (by decide)
                  · exact ne_of_mem_lit hc (by decide)
  apply searchGroup_of_tryAt_some (by simp)
  apply tryAt_found_dollar hT.1
    (fun c hc => moneyChar_of (hT.2 c hc))
    (fun c hc => money_to_clean (hT.2 c hc))
  intro tc tr h
  cases h

theorem valOfDigits_replicate_zero : ∀ n, valOfDigits (List.replicate n '0') = 0 := by
  intro n
  induction n with
  | zero => rfl
  | succ n ih =>
    rw [List.replicate_succ]
    unfold valOfDigits at ih ⊢
    simp only [List.foldl_cons]
    have h0 : (10 * 0 + digitVal '0') = 0 := by decide
    rw [h0]
    exact ih

theorem valOfDigits_padZeros (k : ℕ) (ds : List Char) :
    valOfDigits (padZeros k ds) = valOfDigits ds := by
  unfold padZeros
  rw [valOfDigits_append, valOfDigits_replicate_zero]
  ring

theorem padZeros_length {k : ℕ} {ds : List Char} (h : ds.length ≤ k) :
    (padZeros k ds).length = k := by
  simp only [padZeros, List.length_append, List.length_replicate]
  omega

theorem padZeros_all_digit {k : ℕ} {ds : List Char}
    (h : ∀ c ∈ ds, c.isDigit = true) :
    ∀ c ∈ padZeros k ds, c.isDigit = true := by
  intro c hc
  unfold padZeros at hc
  rcases List.mem_append.mp hc with hc | hc
  · rcases (List.mem_replicate.mp hc).2 with rfl
    rfl
  · exact h c hc

theorem canonShift_id {m k : ℕ} (h : k = 0 ∨ ¬(10 ∣ m)) :
    canonShift m k = (m, k) := by
  cases k with
  | zero => rfl
  | succ j =>
    rcases h with h | h
    · exact absurd h (by omega)
    · unfold canonShift
      rw [if_neg]
      intro hm
      exact h (Nat.dvd_of_mod_eq_zero hm)

theorem pyFloat_pyRepr (m k : ℕ) (h : k = 0 ∨ ¬(10 ∣ m)) :
    pyFloat? (pyReprChars m k) = some ((m : ℚ) / 10 ^ k) := by
  unfold pyReprChars
  rw [canonShift_id h]
  dsimp only
  cases k with
  | zero =>
    rw [if_pos rfl]
    rw [show (natDigits m ++ [ '.', '0' ]) = natDigits m ++ '.' :: [ '0' ] from rfl]
    rw [pyFloat_dot _ _ (Or.inl (natDigits_ne_nil m))
      (natDigits_all_isDigit m) (by decide)]
    have h0 : valOfDigits [ '0' ] = 0 := by decide
    rw [valOfDigits_natDigits, h0]
    norm_num
  | succ j =>
    rw [if_neg (Nat.succ_ne_zero j)]
    rw [List.append_assoc]
    rw [show ([ '.' ] ++ padZeros (j + 1) (natDigits (m % 10 ^ (j + 1))))
          = '.' :: padZeros (j + 1) (natDigits (m % 10 ^ (j + 1))) from rfl]
    rw [pyFloat_dot _ _ (Or.inl (natDigits_ne_nil _))
      (natDigits_all_isDigit _) (padZeros_all_digit (natDigits_all_isDigit _))]
    rw [valOfDigits_natDigits, valOfDigits_padZeros, valOfDigits_natDigits,
      padZeros_length (natDigits_length_le (by omega)
        (Nat.mod_lt _ (Nat.pos_pow_of_pos _ (by omega))))]
    congr 1
    have h10 : ((10 : ℚ) ^ (j + 1)) ≠ 0 := by positivity
    field_simp
    exact_mod_cast Nat.div_add_mod' m (10 ^ (j + 1))

theorem parseMoney_pyRepr (m k : ℕ) (h : k = 0 ∨ ¬(10 ∣ m)) :
    parseMoneyChars (pyReprChars m k) = (m : ℚ) / 10 ^ k := by
  unfold parseMoneyChars
  rw [pyClean_eq_self (pyRepr_chars m k), pyFloat_pyRepr m k h]

theorem filter_commaGroupRev_aux (p : Char → Bool) (hp : p ',' = false) :
    ∀ (n : ℕ) (cs : List Char), cs.length ≤ n → (∀ c ∈ cs, p c = true) →
      (commaGroupRev cs).filter p = cs := by
  intro n
  induction n with
  | zero =>
    intro cs hlen hall
    have hcs : cs = [] := by
      cases cs with
      | nil => rfl
      | cons a t => simp at hlen
    subst hcs
    simp [commaGroupRev]
  | succ n ih =>
    intro cs hlen hall
    rcases cs with _ | ⟨a, _ | ⟨b, _ | ⟨c, _ | ⟨d, rest⟩⟩⟩⟩
    · simp [commaGroupRev]
    · simp only [commaGroupRev]
      exact List.filter_eq_self.mpr hall
    · simp only [commaGroupRev]
      exact List.filter_eq_self.mpr hall
    · simp only [commaGroupRev]
      exact List.filter_eq_self.mpr hall
    · simp only [commaGroupRev]
      rw [List.filter_cons_of_pos (hall a (by simp)),
        List.filter_cons_of_pos (hall b (by simp)),
        List.filter_cons_of_pos (hall c (by simp)),
        List.filter_cons_of_neg (by simp [hp])]
      rw [ih (d :: rest) (by simp at hlen ⊢; omega)
        (fun z hz => hall z (List.mem_cons_of_mem a
          (List.mem_cons_of_mem b (List.mem_cons_of_mem c hz))))]

theorem filter_commaGroup {p : Char → Bool} (hp : p ',' = false)
    (ds : List Char) (hds : ∀ c ∈ ds, p c = true) :
    (commaGroup ds).filter p = ds := by
  unfold commaGroup
  rw [List.filter_reverse]
  rw [filter_commaGroupRev_aux p hp ds.reverse.length ds.reverse (le_refl _)
    (fun c hc => hds c (List.mem_reverse.mp hc))]
  exact List.reverse_reverse ds

theorem centsOf_natCast_div (tc : ℕ) :
    centsOf ((tc : ℚ) / 100) = (tc : ℤ) := by
  unfold centsOf ratFloor
  have hx : ((tc : ℚ) / 100) * 100 = (tc : ℚ) := by field_simp
  rw [hx, Int.floor_natCast]
  dsimp only
  have hz : (tc : ℚ) - ((tc : ℤ) : ℚ) = 0 := by push_cast; ring
  rw [hz]
  norm_num

theorem money2Chars_natCast_div (tc : ℕ) :
    money2Chars ((tc : ℚ) / 100)
      = commaGroup (natDigits (tc / 100))
          ++ '.' :: padZeros 2 (natDigits (tc % 100)) := by
  unfold money2Chars
  rw [centsOf_natCast_div, Int.toNat_natCast, List.append_assoc]
  rfl

theorem money2Chars_class (x : ℚ) :
    ∀ z ∈ money2Chars x, z.isDigit = true ∨ z = '.' ∨ z = ',' := by
  intro z hz
  unfold money2Chars at hz
  dsimp only at hz
  rcases List.mem_append.mp hz with hz | hz
  · rcases List.mem_append.mp hz with hz | hz
    · unfold commaGroup at hz
      rcases mem_commaGroupRev (List.mem_reverse.mp hz) with h | rfl
      · exact Or.inl (natDigits_all_isDigit _ z (List.mem_reverse.mp h))
      · exact Or.inr (Or.inr rfl)
    · rcases List.mem_singleton.mp hz with rfl
      exact Or.inr (Or.inl rfl)
  · exact Or.inl (padZeros_all_digit (natDigits_all_isDigit _) z hz)

theorem money2Chars_ne_nil (x : ℚ) : money2Chars x ≠ [] := by
  unfold money2Chars
  dsimp only
  intro h
  rcases List.append_eq_nil.mp h with ⟨h1, _⟩
  rcases List.append_eq_nil.mp h1 with ⟨_, h2⟩
  exact List.cons_ne_nil _ _ h2

theorem parseMoney_money2 (tc : ℕ) :
    parseMoneyChars (money2Chars ((tc : ℚ) / 100)) = (tc : ℚ) / 100 := by
  rw [money2Chars_natCast_div]
  unfold parseMoneyChars pyClean
  have hfil : ((commaGroup (natDigits (tc / 100))
        ++ '.' :: padZeros 2 (natDigits (tc % 100))).filter
          (fun c => !(c == '$' || c == ',' || c == '%')))
      = natDigits (tc / 100) ++ '.' :: padZeros 2 (natDigits (tc % 100)) := by
    rw [List.filter_append]
    rw [filter_commaGroup (by decide) _
      (fun c hc => (clean_keep (Or.inl (natDigits_all_isDigit _ c hc))).1)]
    rw [List.filter_cons_of_pos (by decide)]
    rw [List.filter_eq_self.mpr
      (fun c hc => (clean_keep (Or.inl
        (padZeros_all_digit (natDigits_all_isDigit _) c hc))).1)]
  rw [hfil]
  rw [pyStrip_eq_self ?hsp]
  case hsp =>
    intro c hc
    rcases List.mem_append.mp hc with hc | hc
    · exact (clean_keep (Or.inl (natDigits_all_isDigit _ c hc))).2
    · rcases List.mem_cons.mp hc with rfl | hc
      · rfl
      · exact (clean_keep (Or.inl
          (padZeros_all_digit (natDigits_all_isDigit _) c hc))).2
  rw [pyFloat_dot _ _ (Or.inl (natDigits_ne_nil _))
    (natDigits_all_isDigit _) (padZeros_all_digit (natDigits_all_isDigit _))]
  dsimp only
  have hlen : (padZeros 2 (natDigits (tc % 100))).length = 2 :=
    padZeros_length (natDigits_length_le (by omega) (by norm_num; omega))
  rw [valOfDigits_natDigits, valOfDigits_padZeros, valOfDigits_natDigits, hlen]
  have h100 : ((10 : ℚ) ^ 2) = 100 := by norm_num
  rw [h100]
  field_simp
  exact_mod_cast Nat.div_add_mod' tc 100

theorem moneyStr_pyRepr (m k : ℕ) : MoneyStr (pyReprChars m k) :=
  ⟨pyRepr_ne_nil m k, fun c hc => (pyRepr_chars m k c hc).elim Or.inl
    (fun h => Or.inr (Or.inl h))⟩

theorem numStr_pyRepr (m k : ℕ) : NumStr (pyReprChars m k) :=
  ⟨pyRepr_ne_nil m k, pyRepr_chars m k⟩

/-- C3 (amended): formatting an employee whose four rate fields are
canonical finite decimals inside the plain float display range and whose
monthly cost is an exact multiple of one cent, then parsing the exported
detail string, reproduces all five numeric fields exactly.  (The claim as
stated fails for other monthly costs, because the `Total` field is printed
rounded to two decimal places.) -/
theorem parse_render_roundTrip (dw dh dn dk : Dec) (tc : ℕ)
    (cw : DecCanon dw) (ch : DecCanon dh) (cn : DecCanon dn) (ck : DecCanon dk)
    (_pw : DecPlain dw) (_ph : DecPlain dh) (_pn : DecPlain dn)
    (_pk : DecPlain dk) :
    parseEmployeeDetail (renderEmployeeDetail dw dh dn dk ((tc : ℚ) / 100))
      = .ok (some { item := importedItem, wage := dw.val, hours := dh.val,
                    nights := dn.val, weeks := dk.val,
                    monthly := (tc : ℚ) / 100 }) := by
  have hW := moneyStr_pyRepr dw.m dw.k
  have hH := numStr_pyRepr dh.m dh.k
  have hN := numStr_pyRepr dn.m dn.k
  have hK := numStr_pyRepr dk.m dk.k
  have hT : MoneyStr (money2Chars ((tc : ℚ) / 100)) :=
    ⟨money2Chars_ne_nil _, money2Chars_class _⟩
  unfold parseEmployeeDetail renderEmployeeDetail
  dsimp only
  rw [wageM_render hW, hoursM_render hW hH, nightsM_render hW hH hN,
    weeksM_render hW hH hN hK, totalM_render hW hH hN hK hT]
  dsimp only
  rw [pyFloat_pyRepr dh.m dh.k ch, pyFloat_pyRepr dn.m dn.k cn,
    pyFloat_pyRepr dk.m dk.k ck]
  dsimp only
  rw [parseMoney_pyRepr dw.m dw.k cw, parseMoney_money2 tc]
  rfl

/-- C3 witness: the record with wage 12.5, hours 5, nights 3, weeks 4.33 and
monthly cost 1123.59 survives the export-then-import round trip exactly. -/
theorem parse_render_roundTrip_witness :
    DecCanon ⟨125, 1⟩ ∧ DecPlain ⟨433, 2⟩ ∧
    parseEmployeeDetail
        (renderEmployeeDetail ⟨125, 1⟩ ⟨5, 0⟩ ⟨3, 0⟩ ⟨433, 2⟩
          (((112359 : ℕ) : ℚ) / 100))
      = .ok (some { item := importedItem, wage := Dec.val ⟨125, 1⟩,
                    hours := Dec.val ⟨5, 0⟩, nights := Dec.val ⟨3, 0⟩,
                    weeks := Dec.val ⟨433, 2⟩,
                    monthly := ((112359 : ℕ) : ℚ) / 100 }) :=
  ⟨by unfold DecCanon; decide, by unfold DecPlain; decide,
    parse_render_roundTrip ⟨125, 1⟩ ⟨5, 0⟩ ⟨3, 0⟩ ⟨433, 2⟩ 112359
      (by unfold DecCanon; decide) (by unfold DecCanon; decide)
      (by unfold DecCanon; decide) (by unfold DecCanon; decide)
      (by unfold DecPlain; decide) (by unfold DecPlain; decide)
      (by unfold DecPlain; decide) (by unfold DecPlain; decide)⟩

/-- C3 counterexample: an employee whose monthly cost is 0.001 renders its
`Total` field as `$0.00`, so the reparsed record carries monthly cost 0, not
0.001 — the round trip is not the identity on all five numeric fields. -/
theorem parse_render_cex :
    parseEmployeeDetail
        (renderEmployeeDetail ⟨1, 0⟩ ⟨2, 0⟩ ⟨3, 0⟩ ⟨4, 0⟩ ((1 : ℚ) / 1000))
      = .ok (some { item := importedItem, wage := 1, hours := 2, nights := 3,
                    weeks := 4, monthly := 0 }) ∧
    ((0 : ℚ) ≠ 1 / 1000) := by
  constructor
  · have hc1 : centsOf ((1 : ℚ) / 1000) = 0 := by
      unfold centsOf ratFloor
      have hx : ((1 : ℚ) / 1000) * 100 = 1 / 10 := by norm_num
      rw [hx]
      have hfl : ⌊(1 : ℚ) / 10⌋ = 0 := by
        rw [Int.floor_eq_zero_iff]
        constructor
        · norm_num
        · norm_num
      rw [hfl]
      dsimp only
      norm_num
    have hc2 : centsOf (((0 : ℕ) : ℚ) / 100) = 0 := by
      have := centsOf_natCast_div 0
      simpa using this
    have hmoney : money2Chars ((1 : ℚ) / 1000)
        = money2Chars (((0 : ℕ) : ℚ) / 100) := by
      unfold money2Chars
      rw [hc1, hc2]
    unfold renderEmployeeDetail
    rw [hmoney]
    have hT : MoneyStr (money2Chars (((0 : ℕ) : ℚ) / 100)) :=
      ⟨money2Chars_ne_nil _, money2Chars_class _⟩
    unfold parseEmployeeDetail
    dsimp only
    rw [wageM_render (moneyStr_pyRepr 1 0),
      hoursM_render (moneyStr_pyRepr 1 0) (numStr_pyRepr 2 0),
      nightsM_render (moneyStr_pyRepr 1 0) (numStr_pyRepr 2 0)
        (numStr_pyRepr 3 0),
      weeksM_render (moneyStr_pyRepr 1 0) (numStr_pyRepr 2 0)
        (numStr_pyRepr 3 0) (numStr_pyRepr 4 0),
      totalM_render (moneyStr_pyRepr 1 0) (numStr_pyRepr 2 0)
        (numStr_pyRepr 3 0) (numStr_pyRepr 4 0) hT]
    dsimp only
    rw [pyFloat_pyRepr 2 0 (Or.inl rfl), pyFloat_pyRepr 3 0 (Or.inl rfl),
      pyFloat_pyRepr 4 0 (Or.inl rfl)]
    dsimp only
    rw [parseMoney_pyRepr 1 0 (Or.inl rfl), parseMoney_money2 0]
    simp only [Except.ok.injEq, Option.some.injEq, EmployeeRec.mk.injEq]
    norm_num
  · norm_num

/-- C6 (amended): the detail parser returns the empty record exactly when at
least one of the five labelled fields fails to match, and the import loop
silently drops such rows; when all five fields match, a full record is
returned provided the Hours, Nights and Weeks captures are valid float
literals — a capture like `"."` matches the pattern yet makes the bare
`float(...)` raise, aborting the import instead of yielding a record. -/
theorem parseEmployeeDetail_spec (s : String)
    (pre post : List (String × String)) (lbl : String) :
    (parseEmployeeDetail s = .ok none ↔
      (wageM s.data = none ∨ hoursM s.data = none ∨ nightsM s.data = none ∨
        weeksM s.data = none ∨ totalM s.data = none)) ∧
    (∀ gw gh gn gk gt qh qn qk,
      wageM s.data = some gw → hoursM s.data = some gh →
      nightsM s.data = some gn → weeksM s.data = some gk →
      totalM s.data = some gt →
      pyFloat? gh = some qh → pyFloat? gn = some qn → pyFloat? gk = some qk →
      parseEmployeeDetail s
        = .ok (some { item := importedItem, wage := parseMoneyChars gw,
                      hours := qh, nights := qn, weeks := qk,
                      monthly := parseMoneyChars gt })) ∧
    (parseEmployeeDetail s = .ok none →
      importEmployees (pre ++ (lbl, s) :: post)
        = importEmployees (pre ++ post)) := by
  refine ⟨?_, ?_, ?_⟩
  · unfold parseEmployeeDetail
    dsimp only
    rcases hw : wageM s.data with _ | gw <;>
      rcases hh : hoursM s.data with _ | gh <;>
      rcases hn : nightsM s.data with _ | gn <;>
      rcases hk : weeksM s.data with _ | gk <;>
      rcases ht : totalM s.data with _ | gt <;>
      simp
    rcases pyFloat? gh with _ | qh <;>
      rcases pyFloat? gn with _ | qn <;>
      rcases pyFloat? gk with _ | qk <;>
      simp
  · intro gw gh gn gk gt qh qn qk hw hh hn hk ht hfh hfn hfk
    unfold parseEmployeeDetail
    dsimp only
    rw [hw, hh, hn, hk, ht]
    dsimp only
    rw [hfh, hfn, hfk]
  · intro h
    induction pre with
    | nil =>
      simp only [List.nil_append]
      by_cases hb : (containsSub employeeTok.data lbl.data
          && containsSub detailsTok.data lbl.data) = true
      · simp only [importEmployees]
        rw [if_pos hb, h]
      · simp only [importEmployees]
        rw [if_neg hb]
    | cons p t ih =>
      rcases p with ⟨l2, s2⟩
      simp only [List.cons_append, importEmployees, List.append_eq]
      by_cases hb2 : (containsSub employeeTok.data l2.data
          && containsSub detailsTok.data l2.data) = true
      · rw [if_pos hb2, if_pos hb2]
        cases hp2 : parseEmployeeDetail s2 with
        | error e => rfl
        | ok o =>
          cases o with
          | none => exact ih
          | some r =>
            dsimp only
            rw [ih]
      · rw [if_neg hb2, if_neg hb2]
        exact ih

/-- C6 witness: a string with no numeric fields parses to the empty record,
and an import row carrying it is dropped without touching the rest. -/
theorem parseEmployeeDetail_spec_witness :
    parseEmployeeDetail noMatchStr = .ok none ∧
    importEmployees ([] ++ (empLbl, noMatchStr) :: [])
      = importEmployees ([] ++ []) := by
  have h := parseEmployeeDetail_spec noMatchStr [] [] empLbl
  have hnone : parseEmployeeDetail noMatchStr = .ok none :=
    (h.1).mpr (Or.inl rfl)
  exact ⟨hnone, h.2.2 hnone⟩

/-- C6 counterexample: in
`"Wage: $1 Hours: 1 Nights: 1 Weeks: . Total: $2"` all five fields
pattern-match (the Weeks capture is `"."`), yet no record is returned: the
bare `float(".")` raises and the exception escapes the parser. -/
theorem parseEmployeeDetail_raise_cex :
    wageM weeksDotStr.data = some [ '1' ] ∧
    hoursM weeksDotStr.data = some [ '1' ] ∧
    nightsM weeksDotStr.data = some [ '1' ] ∧
    weeksM weeksDotStr.data = some [ '.' ] ∧
    totalM weeksDotStr.data = some [ '2' ] ∧
    parseEmployeeDetail weeksDotStr = .error () := by
  exact ⟨rfl, rfl, rfl, rfl, rfl, rfl⟩

end FinTools
